import Mathlib

/-!
Verification development for the `voice-rag-agent` repository.

Text is modelled as `List Char` (`Str`). Each definition below is a shallow
embedding of a function of the Python source, translated clause by clause:

* `rag/rewrite.py`      → `rewrite_query`
* `postprocess.py`      → `postprocess_for_voice` (with `collapseWs`/`pyStrip`
  for `re.sub(r"\s+", " ", text).strip()`, `splitSent` for
  `re.split(r'(?<=[.!?]) +', text)`, and `truncPart` for the per-sentence
  truncation loop)
* `rag/retriever.py`    → `hybrid_search` (first definition, lines 54-95, with
  its three strategies) and `hybrid_search_v2` (second definition, lines
  108-115, which shadows the first at import time)
* `rag/reranker.py`     → `rerank`
* `realtime.py`         → `MetricsCollector`, `runPipeline`
  (`RealtimeCoordinator._run_pipeline`), `retrieveAndRerank`
  (`RealtimeCoordinator._retrieve_and_rerank`)

External collaborators (the Groq LLM client, the FAISS index, the BM25
scorer, the cross-encoder, the TTS engine) are opaque oracles supplied through
environment records; their outcomes (`Except`) model success or a raised
exception at the call site.  Latencies are modelled as rationals.
-/

abbrev Str := List Char

/-- Python's whitespace class `\s` (ASCII fragment), as used by `re.sub`,
`str.split()` and `str.strip()` in the source. -/
def isPySpace (c : Char) : Bool :=
  c = ' ' || c = '\t' || c = '\n' || c = '\r' || c = '\x0b' || c = '\x0c'

/-- ASCII lowercasing of one character, modelling Python's `str.lower`. -/
def pyLower1 (c : Char) : Char :=
  if 'A' ≤ c ∧ c ≤ 'Z' then Char.ofNat (c.toNat + 32) else c

/-- Python `str.lower()`. -/
def pyLower (s : Str) : Str := s.map pyLower1

/-- Python `sep.join(parts)`. -/
def joinSep (sep : Str) : List Str → Str
  | [] => []
  | [w] => w
  | w :: v :: ws => w ++ sep ++ joinSep sep (v :: ws)

/-- Python `" ".join(parts)`. -/
def joinSpace : List Str → Str := joinSep [' ']

/-- Accumulator worker for `pyWords`; `cur` holds the current word reversed. -/
def pyWordsAux (cur : Str) : Str → List Str
  | [] => if cur = [] then [] else [cur.reverse]
  | c :: rest =>
    if isPySpace c then
      if cur = [] then pyWordsAux [] rest else cur.reverse :: pyWordsAux [] rest
    else pyWordsAux (c :: cur) rest

/-- Python `s.split()`: split on whitespace runs, dropping empty tokens. -/
def pyWords (s : Str) : List Str := pyWordsAux [] s

/-- `beginsWith n h` holds when `n` is an initial segment of `h`. -/
def beginsWith : Str → Str → Bool
  | [], _ => true
  | _ :: _, [] => false
  | a :: as, b :: bs => a == b && beginsWith as bs

/-- Python's substring test `needle in haystack`. -/
def containsSub (needle : Str) : Str → Bool
  | [] => needle.isEmpty
  | c :: rest => beginsWith needle (c :: rest) || containsSub needle rest

/-- Stable insertion of `x` into `l`: `x` goes before the first element whose
key is `≤ key x`.  Used to model Python's stable `list.sort(key=lambda x:
-key(x))` / `sorted(..., key=lambda x: -key(x))`. -/
def insDescBy {α : Type} (key : α → ℚ) (x : α) : List α → List α
  | [] => [x]
  | y :: ys => if key y ≤ key x then x :: y :: ys else y :: insDescBy key x ys

/-- Stable descending sort by `key`; extensionally equal to Python's stable
sort with key `-key(x)`. -/
def sortDescBy {α : Type} (key : α → ℚ) : List α → List α
  | [] => []
  | x :: xs => insDescBy key x (sortDescBy key xs)

/-! ### rag/rewrite.py -/

/-- The fixed pronoun/ordinal list of `rewrite_query` (rewrite.py line 21). -/
def pronouns : List Str :=
  ["it".data, "that".data, "this".data, "they".data, "them".data,
   "second".data, "first".data]

/-- `rewrite_query(query, history)` (rewrite.py lines 11-24): empty history
returns the query; otherwise if any pronoun occurs as a substring of the
lowercased query, append `" (context: " + history[-1] + ")"`. -/
def rewrite_query (query : Str) (history : List Str) : Str :=
  if history = [] then query
  else if pronouns.any (fun p => containsSub p (pyLower query)) then
    query ++ " (context: ".data ++ history.getLastD [] ++ ")".data
  else query

/-! ### postprocess.py -/

/-- Sentence-terminal punctuation `[.!?]` of the splitting regex. -/
def isPunct (c : Char) : Bool := c = '.' || c = '!' || c = '?'

/-- `re.sub(r"\s+", " ", text)`: collapse each whitespace run to one space. -/
def collapseWs : Str → Str
  | [] => []
  | [c] => if isPySpace c then [' '] else [c]
  | c :: d :: rest =>
    if isPySpace c then
      if isPySpace d then collapseWs (d :: rest) else ' ' :: collapseWs (d :: rest)
    else c :: collapseWs (d :: rest)

/-- Python `str.strip()`. -/
def pyStrip (s : Str) : Str :=
  ((s.dropWhile isPySpace).reverse.dropWhile isPySpace).reverse

/-- `re.sub(r"\s+", " ", text).strip()` (postprocess.py line 16). -/
def normWs (s : Str) : Str := pyStrip (collapseWs s)

/-- Scanner for `re.split(r'(?<=[.!?]) +', text)`.  `skip` is true while
consuming the space run of a delimiter, `acc` holds the current part
reversed. -/
def sentM : Bool → Str → Str → List Str
  | _, acc, [] => [acc.reverse]
  | skip, acc, [c] =>
    if skip && c == ' ' then [acc.reverse] else [(c :: acc).reverse]
  | skip, acc, c :: d :: rest =>
    if skip && c == ' ' then sentM skip acc (d :: rest)
    else if isPunct c && d == ' ' then (c :: acc).reverse :: sentM true [] (d :: rest)
    else sentM false (c :: acc) (d :: rest)

/-- `re.split(r'(?<=[.!?]) +', text)` (postprocess.py line 19). -/
def splitSent (s : Str) : List Str := sentM false [] s

/-- Body of the per-sentence loop (postprocess.py lines 21-26): truncate a part
to `maxW` words and add a trailing ellipsis, else keep it unchanged. -/
def truncPart (maxW : ℕ) (p : Str) : Str :=
  let ws := pyWords p
  if maxW < ws.length then joinSpace (ws.take maxW) ++ "...".data
  else p

/-- `postprocess_for_voice(text, max_sentence_words=18)`
(postprocess.py lines 8-28). -/
def postprocess_for_voice (text : Str) (max_sentence_words : ℕ := 18) : Str :=
  joinSpace ((splitSent (normWs text)).map (truncPart max_sentence_words))

/-! ### rag/reranker.py and the lexical overlap score -/

/-- `len(set(query.lower().split()).intersection(set(doc.lower().split())))`:
the number of distinct lowercase query tokens also occurring in the doc. -/
def overlapScore (query doc : Str) : ℕ :=
  ((pyWords (pyLower query)).dedup.filter
    (fun w => (pyWords (pyLower doc)).contains w)).length

/-- The external cross-encoder of reranker.py as an oracle: is the model
importable, and what does `model.predict(pairs)` return (or raise)? -/
structure RerankEnv where
  modelAvailable : Bool
  modelOutcome : Except Str (List ℚ)

/-- The fallback's `scored` list (reranker.py lines 31-35): every candidate is
scored (zero overlaps included), in candidate order. -/
def rerankFallbackScored (query : Str) (candidates : List Str) : List (ℚ × Str) :=
  candidates.map (fun d => ((overlapScore query d : ℚ), d))

/-- `rerank(query, candidates, top_k=5)` (reranker.py lines 15-37). -/
def rerank (env : RerankEnv) (query : Str) (candidates : List Str) (top_k : ℕ) :
    List (ℚ × Str) :=
  if candidates = [] then []
  else if env.modelAvailable then
    match env.modelOutcome with
    | .ok scores => (sortDescBy Prod.fst (scores.zip candidates)).take top_k
    | .error _ => (sortDescBy Prod.fst (rerankFallbackScored query candidates)).take top_k
  else (sortDescBy Prod.fst (rerankFallbackScored query candidates)).take top_k

/-! ### rag/retriever.py, first definition (lines 54-95) -/

/-- External resources of the first `hybrid_search`: the module-level `_docs`,
whether `_index`/`_embedder` are loaded, the outcome `D, I` of
`_index.search` (score/index rows), whether `rank_bm25` imported, and the
outcome of `bm25.get_scores` (one score per doc). -/
structure RetrievalEnv where
  docs : List Str
  indexLoaded : Bool
  vectorOutcome : Except Str (List (ℚ × Int))
  bm25Available : Bool
  bm25Outcome : Except Str (List ℚ)

/-- The guarded doc lookup of the vector loop (retriever.py lines 66-69):
indices outside `[0, len(_docs))` are dropped. -/
def lookupDoc (docs : List Str) (idx : Int) : Option Str :=
  if h : 0 ≤ idx ∧ idx.toNat < docs.length then some (docs.get ⟨idx.toNat, h.2⟩)
  else none

/-- Vector strategy result: `(float(-score), _docs[idx])` for each valid hit. -/
def vectorResults (docs : List Str) (hits : List (ℚ × Int)) : List (ℚ × Str) :=
  hits.filterMap (fun h => (lookupDoc docs h.2).map (fun d => (-h.1, d)))

/-- BM25 strategy (retriever.py lines 75-80):
`sorted(enumerate(scores), key=lambda x: -x[1])[:k]` then doc lookup. -/
def bm25Results (docs : List Str) (scores : List ℚ) (k : ℕ) : List (ℚ × Str) :=
  ((sortDescBy Prod.snd scores.enum).take k).map
    (fun is => (is.2, docs.getD is.1 []))

/-- Lexical overlap strategy (retriever.py lines 84-93): positive-overlap docs
in corpus order, stably sorted descending, truncated to `k`. -/
def lexicalResults (docs : List Str) (query : Str) (k : ℕ) : List (ℚ × Str) :=
  (sortDescBy Prod.fst (docs.filterMap (fun d =>
    let s := overlapScore query d
    if 0 < s then some ((s : ℚ), d) else none))).take k

/-- The BM25-then-lexical fallback ladder (retriever.py lines 74-95). -/
def hybridFallback (env : RetrievalEnv) (query : Str) (k : ℕ) : List (ℚ × Str) :=
  if env.docs ≠ [] ∧ env.bm25Available then
    match env.bm25Outcome with
    | .ok scores => bm25Results env.docs scores k
    | .error _ => if env.docs ≠ [] then lexicalResults env.docs query k else []
  else if env.docs ≠ [] then lexicalResults env.docs query k else []

/-- `hybrid_search(query, k=5)`, first definition (retriever.py lines 54-95). -/
def hybrid_search (env : RetrievalEnv) (query : Str) (k : ℕ) : List (ℚ × Str) :=
  if env.indexLoaded then
    match env.vectorOutcome with
    | .ok hits => vectorResults env.docs hits
    | .error _ => hybridFallback env query k
  else hybridFallback env query k

/-! ### rag/retriever.py, second definition (lines 108-115) -/

/-- Python list indexing `docs[i]` with negative-index wrap-around, as used by
the second `hybrid_search` (which does no range check; FAISS pads missing
results with index `-1`, so `docs[-1]` dereferences the last doc). Lookups
outside the reachable range are given a default. -/
def pyIndex (docs : List Str) (i : Int) : Str :=
  if 0 ≤ i then docs.getD i.toNat []
  else docs.getD (docs.length - (-i).toNat) []

/-- `hybrid_search(query, k=5)`, second definition (retriever.py lines
108-115), which shadows the first at import: `vector_hits` are the raw doc
texts at the service's indices, `bm25_hits` the BM25 top-n texts, and the
result is `list(set(vector_hits + bm25_hits))` — an unordered deduplicated
union, modelled here with `List.dedup` (any fixed order; the properties we
state about it are order-insensitive). -/
def hybrid_search_v2 (docs : List Str) (vecIdxs : List Int) (bm25Hits : List Str) :
    List Str :=
  ((vecIdxs.map (pyIndex docs)) ++ bm25Hits).dedup

/-! ### realtime.py -/

/-- `MetricsCollector` (realtime.py lines 41-59). -/
structure MetricsCollector where
  runs : ℕ := 0
  total_retrieval_time : ℚ := 0
  total_time : ℚ := 0

/-- `MetricsCollector.add` (realtime.py lines 47-50). -/
def MetricsCollector.add (m : MetricsCollector) (retrieval_time total_time : ℚ) :
    MetricsCollector :=
  { runs := m.runs + 1,
    total_retrieval_time := m.total_retrieval_time + retrieval_time,
    total_time := m.total_time + total_time }

/-- `MetricsCollector.summary` (realtime.py lines 52-59): an empty result when
`runs == 0`; the averaging divisions sit in the other branch only. -/
def MetricsCollector.summary (m : MetricsCollector) : Option (ℕ × ℚ × ℚ) :=
  if m.runs = 0 then none
  else some (m.runs, m.total_retrieval_time / (m.runs : ℚ),
             m.total_time / (m.runs : ℚ))

/-- The sentinel returned by `get_llm_response` when no Groq client is
configured (app.py line 37). -/
def sentinelLLM : Str :=
  "[LLM unavailable - set GROQ_API_KEY and install Groq SDK]".data

/-- External collaborators of one pipeline run: whether `GROQ_CLIENT` is
configured, the outcome of `GROQ_CLIENT.chat.completions.create` (app.py
lines 39-44, unguarded — it may raise), and the outcome of awaiting
`_retrieve_and_rerank`.  `tts.speak` swallows all of its exceptions
(speech/tts.py) and so has no failure outcome. -/
structure PipelineEnv where
  llmClientAvailable : Bool
  llmCall : Str → Except Str Str
  retrieveOutcome : Except Str (List Str)

/-- `get_llm_response(user_text)` (app.py lines 28-44). -/
def get_llm_response (env : PipelineEnv) (user_text : Str) : Except Str Str :=
  if env.llmClientAvailable then env.llmCall user_text else .ok sentinelLLM

/-- The filler prompt of `_run_pipeline` (realtime.py line 97). -/
def fillerPrompt (transcript : Str) : Str :=
  "You are a helpful assistant. Give a very short acknowledgement for: ".data
    ++ transcript

/-- `filler_text.split(".")[0] + "."` (realtime.py line 102). -/
def fillerFirstSentence (s : Str) : Str :=
  s.takeWhile (fun c => c ≠ '.') ++ ['.']

/-- `f"Context:\n{ctx_text}\n\nQuestion: {partial}"` with
`ctx_text = "\n\n".join(contexts)` (realtime.py lines 120-121). -/
def finalPromptOf (contexts : List Str) (transcript : Str) : Str :=
  "Context:\n".data ++ joinSep "\n\n".data contexts
    ++ "\n\nQuestion: ".data ++ transcript

/-- How one `_run_pipeline` task ends: normal completion; cancellation
(`task.cancel()` from a superseding `handle_partial`, delivered as
`CancelledError` at suspension point `ckpt`); or a non-cancellation exception
escaping the task. -/
inductive RunEnd
  | completed (finalAnswer : Str)
  | cancelled (ckpt : ℕ)
  | error (msg : Str)
deriving DecidableEq

/-- Observable effects of one `_run_pipeline` task. `fillerDispatched` is the
text handed to the TTS executor (an already-dispatched speak call keeps
playing even if the run is later cancelled). -/
structure RunResult where
  outcome : RunEnd
  fillerDispatched : Option Str
  finalPromptUsed : Option Str
  finalSpoken : Option Str
  historyAppends : List Str
  metricsRecorded : Bool
deriving DecidableEq

/-- `RealtimeCoordinator._run_pipeline(partial)` (realtime.py lines 93-146),
as a function of the external-call outcomes and of the suspension point (if
any) at which a superseding `handle_partial`'s `task.cancel()` is delivered.

The suspension points, in program order, are the awaits of the coroutine:
0 = `await asyncio.to_thread(get_llm_response, filler_prompt)` (line 100),
1 = `await retrieval_task` (line 113; `CancelledError` is caught there and the
coroutine returns — the only cancellation the code catches),
2 = `await asyncio.to_thread(get_llm_response, final_prompt)` (line 122),
3 = `await filler_play` (line 127; its `except Exception` does not catch
`CancelledError`),
4 = `await asyncio.to_thread(tts_speak, final_answer)` (line 132).
After point 4 the coroutine runs straight-line to the end: metrics are
recorded (line 136) and the transcript and final answer are appended to
history (lines 142-143).  A `cancelAt` beyond the awaits that are reached
means the cancellation is never delivered and the run completes. -/
def runPipeline (env : PipelineEnv) (cancelAt : Option ℕ) (transcript : Str) :
    RunResult :=
  if cancelAt = some 0 then
    { outcome := .cancelled 0, fillerDispatched := none, finalPromptUsed := none,
      finalSpoken := none, historyAppends := [], metricsRecorded := false }
  else
    match get_llm_response env (fillerPrompt transcript) with
    | .error e =>
      { outcome := .error e, fillerDispatched := none, finalPromptUsed := none,
        finalSpoken := none, historyAppends := [], metricsRecorded := false }
    | .ok fillerText =>
      let filler := fillerFirstSentence fillerText
      if cancelAt = some 1 then
        { outcome := .cancelled 1, fillerDispatched := some filler,
          finalPromptUsed := none, finalSpoken := none, historyAppends := [],
          metricsRecorded := false }
      else
        match env.retrieveOutcome with
        | .error e =>
          { outcome := .error e, fillerDispatched := some filler,
            finalPromptUsed := none, finalSpoken := none, historyAppends := [],
            metricsRecorded := false }
        | .ok contexts =>
          if cancelAt = some 2 then
            { outcome := .cancelled 2, fillerDispatched := some filler,
              finalPromptUsed := none, finalSpoken := none, historyAppends := [],
              metricsRecorded := false }
          else
            match get_llm_response env (finalPromptOf contexts transcript) with
            | .error e =>
              { outcome := .error e, fillerDispatched := some filler,
                finalPromptUsed := some (finalPromptOf contexts transcript),
                finalSpoken := none, historyAppends := [],
                metricsRecorded := false }
            | .ok raw =>
              let ans := postprocess_for_voice raw
              if cancelAt = some 3 then
                { outcome := .cancelled 3, fillerDispatched := some filler,
                  finalPromptUsed := some (finalPromptOf contexts transcript),
                  finalSpoken := none, historyAppends := [],
                  metricsRecorded := false }
              else if cancelAt = some 4 then
                { outcome := .cancelled 4, fillerDispatched := some filler,
                  finalPromptUsed := some (finalPromptOf contexts transcript),
                  finalSpoken := none, historyAppends := [],
                  metricsRecorded := false }
              else
                { outcome := .completed ans, fillerDispatched := some filler,
                  finalPromptUsed := some (finalPromptOf contexts transcript),
                  finalSpoken := some ans, historyAppends := [transcript, ans],
                  metricsRecorded := true }

/-- `RealtimeCoordinator._retrieve_and_rerank(query)` (realtime.py lines
155-167), composed from the embedded rewriter, retriever (first definition)
and reranker; every external call inside these is internally guarded, so the
composition is total. -/
def retrieveAndRerank (renv : RetrievalEnv) (cenv : RerankEnv)
    (history : List Str) (query : Str) : List Str :=
  let q2 := rewrite_query query history
  let candidates := hybrid_search renv q2 8
  let texts := candidates.map Prod.snd
  let reranked := rerank cenv q2 texts 3
  reranked.map Prod.snd

/-! ### Concrete environments used to instantiate the theorems -/

/-- A reranker environment with no cross-encoder available. -/
def cenvNoModel : RerankEnv := ⟨false, .error []⟩

/-- A pipeline environment whose Groq client is configured but whose API call
raises. -/
def envLLMRaises : PipelineEnv := ⟨true, fun _ => .error "boom".data, .ok []⟩

/-- A pipeline environment with no Groq client configured and an empty
retrieval result. -/
def envNoClient : PipelineEnv := ⟨false, fun _ => .error [], .ok []⟩

/-- A pipeline environment where every external call succeeds (with empty
payloads). -/
def envAllOk : PipelineEnv := ⟨true, fun _ => .ok [], .ok []⟩

/-- A retrieval environment whose ranked-search service returns two hits with
non-decreasing distances, nearest first (the FAISS L2 contract). -/
def renvSorted : RetrievalEnv :=
  ⟨["aa".data, "bb".data], true, .ok [(1, 0), (2, 1)], false, .error []⟩

/-- A retrieval environment with an empty corpus and nothing loaded. -/
def renvEmpty : RetrievalEnv := ⟨[], false, .error [], false, .error []⟩

/-! ### Word-level view of postprocessing, used to prove idempotence (C8) -/

/-- Does a word end in sentence-terminal punctuation? -/
def endsPunct (w : Str) : Bool :=
  match w.getLast? with
  | some c => isPunct c
  | none => false

/-- Group a word list into sentences: cut after every word ending in
punctuation, except after the final word. -/
def groupSentsAux (cur : List Str) : List Str → List (List Str)
  | [] => [cur.reverse]
  | [w] => [(w :: cur).reverse]
  | w :: v :: ws =>
    if endsPunct w then (w :: cur).reverse :: groupSentsAux [] (v :: ws)
    else groupSentsAux (w :: cur) (v :: ws)

/-- Sentence groups of a word list. -/
def groupSents (ws : List Str) : List (List Str) := groupSentsAux [] ws

/-- Append a suffix to the last word of a word list; an empty list becomes the
bare suffix. -/
def appendToLast (suf : Str) : List Str → List Str
  | [] => [suf]
  | [w] => [w ++ suf]
  | w :: v :: ws => w :: appendToLast suf (v :: ws)

/-- Word-level view of `truncPart`. -/
def truncWords (maxW : ℕ) (g : List Str) : List Str :=
  if maxW < g.length then appendToLast "...".data (g.take maxW) else g

/-- A word as produced by `pyWords`: non-empty and whitespace-free. -/
def goodWord (w : Str) : Prop := w ≠ [] ∧ ∀ c ∈ w, isPySpace c = false

/-- The sentence prefix corresponding to an accumulated (reversed) group:
the words joined, plus the trailing separator space already consumed. -/
def pfxOf (cur : List Str) : Str :=
  if cur = [] then [] else joinSpace cur.reverse ++ [' ']

example : pyWords "a  bc d".data = ["a".data, "bc".data, "d".data] := by decide
example : splitSent "a. . b".data = ["a.".data, ".".data, "b".data] := by decide
example : splitSent "a. ".data = ["a.".data, "".data] := by decide
example : splitSent "hi.. there".data = ["hi..".data, "there".data] := by decide
example : normWs "  a \t b ".data = "a b".data := by decide
example : postprocess_for_voice "one two  three. four".data 2
    = "one two... four".data := by decide
example : postprocess_for_voice "one two  three. four".data 3
    = "one two three. four".data := by decide
example : rewrite_query "what about it?".data ["I bought a car".data]
    = "what about it? (context: I bought a car)".data := by decide
example : rewrite_query "hello".data [] = "hello".data := by decide
example : rewrite_query "with".data ["X".data] = "with (context: X)".data := by decide
example : overlapScore "red car price".data "the red car costs a lot".data = 2 := by decide
example : rerank ⟨false, .error []⟩ "x".data ["y".data] 5
    = [((0 : ℚ), "y".data)] := by decide
example : (hybrid_search_v2 ["a".data, "b".data] [0] ["b".data]).length = 2 := by decide
example : fillerFirstSentence "Ok. Sure".data = "Ok.".data := by decide

/-! ### Lemmas about the stable descending sort -/

theorem mem_insDescBy {α : Type} (key : α → ℚ) (x : α) (l : List α) (z : α) :
    z ∈ insDescBy key x l ↔ z = x ∨ z ∈ l := by
  induction l with
  | nil => simp [insDescBy]
  | cons y ys ih =>
    by_cases h : key y ≤ key x
    · simp [insDescBy, h]
    · simp only [insDescBy, if_neg h, List.mem_cons, ih]
      tauto

theorem insDescBy_perm {α : Type} (key : α → ℚ) (x : α) (l : List α) :
    (insDescBy key x l).Perm (x :: l) := by
  induction l with
  | nil => simp [insDescBy]
  | cons y ys ih =>
    by_cases h : key y ≤ key x
    · simp [insDescBy, h]
    · simp only [insDescBy, if_neg h]
      exact (ih.cons y).trans (List.Perm.swap x y ys)

theorem sortDescBy_perm {α : Type} (key : α → ℚ) (l : List α) :
    (sortDescBy key l).Perm l := by
  induction l with
  | nil => simp [sortDescBy]
  | cons x xs ih =>
    exact (insDescBy_perm key x (sortDescBy key xs)).trans (ih.cons x)

theorem pairwise_insDescBy {α : Type} (key : α → ℚ) (x : α) (l : List α)
    (hl : l.Pairwise (fun a b => key b ≤ key a)) :
    (insDescBy key x l).Pairwise (fun a b => key b ≤ key a) := by
  induction l with
  | nil => simp [insDescBy]
  | cons y ys ih =>
    rcases List.pairwise_cons.mp hl with ⟨hy, hys⟩
    by_cases h : key y ≤ key x
    · simp only [insDescBy, if_pos h]
      refine List.pairwise_cons.mpr ⟨?_, hl⟩
      intro z hz
      rcases List.mem_cons.mp hz with rfl | hz
      · exact h
      · exact le_trans (hy z hz) h
    · simp only [insDescBy, if_neg h]
      refine List.pairwise_cons.mpr ⟨?_, ih hys⟩
      intro z hz
      rcases (mem_insDescBy key x ys z).mp hz with rfl | hz
      · exact le_of_not_le h
      · exact hy z hz

theorem pairwise_sortDescBy {α : Type} (key : α → ℚ) (l : List α) :
    (sortDescBy key l).Pairwise (fun a b => key b ≤ key a) := by
  induction l with
  | nil => simp [sortDescBy]
  | cons x xs ih => exact pairwise_insDescBy key x (sortDescBy key xs) ih

theorem pairwise_sortDescBy_take {α : Type} (key : α → ℚ) (l : List α) (k : ℕ) :
    ((sortDescBy key l).take k).Pairwise (fun a b => key b ≤ key a) :=
  (pairwise_sortDescBy key l).sublist (List.take_sublist k (sortDescBy key l))

theorem filter_insDescBy {α : Type} (key : α → ℚ) (x : α) (l : List α)
    (p : α → Bool) (hp : ∀ a b, p a = true → p b = true → key a = key b) :
    (insDescBy key x l).filter p = (x :: l).filter p := by
  induction l with
  | nil => simp [insDescBy]
  | cons y ys ih =>
    by_cases h : key y ≤ key x
    · simp [insDescBy, h]
    · simp only [insDescBy, if_neg h]
      by_cases hx : p x = true
      · by_cases hy : p y = true
        · exact absurd (hp x y hx hy) (by intro he; exact h (le_of_eq he.symm))
        · simp only [List.filter_cons]
          rw [ih]
          simp [List.filter_cons, hx, hy]
      · simp only [List.filter_cons]
        rw [ih]
        simp [List.filter_cons, hx]

theorem filter_sortDescBy {α : Type} (key : α → ℚ) (l : List α)
    (p : α → Bool) (hp : ∀ a b, p a = true → p b = true → key a = key b) :
    (sortDescBy key l).filter p = l.filter p := by
  induction l with
  | nil => simp [sortDescBy]
  | cons x xs ih =>
    rw [show sortDescBy key (x :: xs) = insDescBy key x (sortDescBy key xs) from rfl,
        filter_insDescBy key x (sortDescBy key xs) p hp]
    simp only [List.filter_cons]
    rw [ih]

/-- Non-increasing adjacent scores, the ordering invariant of the spec. -/
abbrev scoresNonIncreasing (l : List (ℚ × Str)) : Prop :=
  l.Pairwise (fun a b => b.1 ≤ a.1)

/-! ### Ordering of each retrieval strategy and of the reranker -/

theorem vectorResults_nonincreasing (docs : List Str) (hits : List (ℚ × Int))
    (h : hits.Pairwise (fun a b => a.1 ≤ b.1)) :
    scoresNonIncreasing (vectorResults docs hits) := by
  unfold vectorResults scoresNonIncreasing
  rw [List.pairwise_filterMap]
  refine h.imp ?_
  intro a b hab x hx y hy
  rw [Option.mem_def, Option.map_eq_some'] at hx hy
  obtain ⟨dx, hdx, rfl⟩ := hx
  obtain ⟨dy, hdy, rfl⟩ := hy
  exact neg_le_neg hab

theorem bm25Results_nonincreasing (docs : List Str) (scores : List ℚ) (k : ℕ) :
    scoresNonIncreasing (bm25Results docs scores k) := by
  unfold bm25Results scoresNonIncreasing
  rw [List.pairwise_map]
  exact (pairwise_sortDescBy_take Prod.snd scores.enum k).imp (fun h => h)

theorem lexicalResults_nonincreasing (docs : List Str) (q : Str) (k : ℕ) :
    scoresNonIncreasing (lexicalResults docs q k) :=
  pairwise_sortDescBy_take Prod.fst _ k

theorem hybridFallback_nonincreasing (env : RetrievalEnv) (q : Str) (k : ℕ) :
    scoresNonIncreasing (hybridFallback env q k) := by
  unfold hybridFallback
  split
  · split
    · exact bm25Results_nonincreasing env.docs _ k
    · split
      · exact lexicalResults_nonincreasing env.docs q k
      · exact List.Pairwise.nil
  · split
    · exact lexicalResults_nonincreasing env.docs q k
    · exact List.Pairwise.nil

theorem hybrid_search_nonincreasing (env : RetrievalEnv) (q : Str) (k : ℕ)
    (hvec : ∀ hits, env.vectorOutcome = .ok hits →
      hits.Pairwise (fun a b => a.1 ≤ b.1)) :
    scoresNonIncreasing (hybrid_search env q k) := by
  unfold hybrid_search
  split
  · split
    next hits heq => exact vectorResults_nonincreasing env.docs hits (hvec hits heq)
    next e heq => exact hybridFallback_nonincreasing env q k
  · exact hybridFallback_nonincreasing env q k

theorem rerank_nonincreasing (env : RerankEnv) (q : Str) (cands : List Str)
    (top_k : ℕ) : scoresNonIncreasing (rerank env q cands top_k) := by
  unfold rerank
  split
  · exact List.Pairwise.nil
  · split
    · cases env.modelOutcome with
      | ok s => exact pairwise_sortDescBy_take Prod.fst _ top_k
      | error e => exact pairwise_sortDescBy_take Prod.fst _ top_k
    · exact pairwise_sortDescBy_take Prod.fst _ top_k

/-! ### Shape of one pipeline run -/

/-- Every run either ends without any side effect (cancelled or errored), or
completes, appending exactly the transcript and the final answer. -/
theorem runPipeline_shape (env : PipelineEnv) (c : Option ℕ) (t : Str) :
    ((runPipeline env c t).historyAppends = []
      ∧ (runPipeline env c t).metricsRecorded = false
      ∧ (runPipeline env c t).finalSpoken = none
      ∧ ∀ a, (runPipeline env c t).outcome ≠ RunEnd.completed a)
    ∨ ∃ a, (runPipeline env c t).outcome = RunEnd.completed a
        ∧ (runPipeline env c t).historyAppends = [t, a]
        ∧ (runPipeline env c t).metricsRecorded = true
        ∧ (runPipeline env c t).finalSpoken = some a := by
  unfold runPipeline
  repeat' split
  all_goals solve
    | (refine Or.inl ⟨?_, ?_, ?_, ?_⟩ <;> simp)
    | exact Or.inr ⟨_, rfl, rfl, rfl, rfl⟩

/-- Claim C1: every sequence returned by the retrieval engine (the first
`hybrid_search` definition, on any of its three strategies: negated-distance
vector search, BM25 ranking, lexical overlap) and by the reranker (`rerank`,
model path or fallback) has non-increasing scores — ordered best-first under
the higher-is-better convention.  The vector path inherits the property from
the ranked-search service's nearest-first contract (distances
non-decreasing); the two lexical strategies and both rerank paths sort
explicitly. -/
theorem retrieval_and_rerank_scores_nonincreasing
    (renv : RetrievalEnv) (cenv : RerankEnv) (q q2 : Str) (k top_k : ℕ)
    (cands : List Str)
    (hvec : ∀ hits, renv.vectorOutcome = .ok hits →
      hits.Pairwise (fun a b => a.1 ≤ b.1)) :
    scoresNonIncreasing (hybrid_search renv q k)
    ∧ scoresNonIncreasing (rerank cenv q2 cands top_k) :=
  ⟨hybrid_search_nonincreasing renv q k hvec,
   rerank_nonincreasing cenv q2 cands top_k⟩

/-- Witness for C1 at a concrete vector-service outcome (two hits, distances
non-decreasing) and a concrete no-model rerank call. -/
theorem retrieval_and_rerank_scores_nonincreasing_witness :
    scoresNonIncreasing (hybrid_search renvSorted "q".data 5)
    ∧ scoresNonIncreasing (rerank cenvNoModel "x a".data ["b".data, "a x".data] 2) :=
  retrieval_and_rerank_scores_nonincreasing renvSorted cenvNoModel "q".data
    "x a".data 5 2 ["b".data, "a x".data]
    (fun hits h => by
      simp only [renvSorted] at h
      cases h
      decide)

/-- Claim C2: a cancelled run — one whose `task.cancel()` issued by a
superseding `handle_partial` is delivered at one of its suspension points —
never appends to the conversation history and never records metrics, even
though already-dispatched branch work (the filler playback) may still
finish; dually, any history or metrics update comes from a run that reached
completion. -/
theorem cancelled_run_no_history_no_metrics
    (env : PipelineEnv) (c : Option ℕ) (t : Str) :
    (∀ n, (runPipeline env c t).outcome = RunEnd.cancelled n →
      (runPipeline env c t).historyAppends = []
      ∧ (runPipeline env c t).metricsRecorded = false)
    ∧ (((runPipeline env c t).historyAppends ≠ []
        ∨ (runPipeline env c t).metricsRecorded = true) →
      ∃ a, (runPipeline env c t).outcome = RunEnd.completed a) := by
  rcases runPipeline_shape env c t with ⟨h1, h2, _, _⟩ | ⟨a, ha, _, h2, _⟩
  · refine ⟨fun n _ => ⟨h1, h2⟩, fun h => ?_⟩
    rcases h with h | h
    · exact absurd h1 h
    · rw [h2] at h
      exact absurd h (by decide)
  · exact ⟨fun n hn => absurd (hn ▸ ha) (by simp), fun _ => ⟨a, ha⟩⟩

/-- Witness for C2: cancellation delivered at suspension point 2, after the
filler was already dispatched to the TTS executor — no history, no
metrics. -/
theorem cancelled_run_no_history_no_metrics_witness :
    (runPipeline envAllOk (some 2) "hi".data).fillerDispatched
        = some (fillerFirstSentence [])
    ∧ (runPipeline envAllOk (some 2) "hi".data).historyAppends = []
    ∧ (runPipeline envAllOk (some 2) "hi".data).metricsRecorded = false := by
  have h := (cancelled_run_no_history_no_metrics envAllOk (some 2) "hi".data).1 2
    (by decide)
  exact ⟨by decide, h.1, h.2⟩

/-- Claim C4: a run that reaches completion appends exactly two entries to
the conversation history — the input transcript, then the final answer, in
that order — and speaks that final answer. -/
theorem completed_run_appends_transcript_then_answer
    (env : PipelineEnv) (c : Option ℕ) (t a : Str)
    (h : (runPipeline env c t).outcome = RunEnd.completed a) :
    (runPipeline env c t).historyAppends = [t, a]
    ∧ (runPipeline env c t).finalSpoken = some a := by
  rcases runPipeline_shape env c t with ⟨_, _, _, h4⟩ | ⟨b, hb, h1, _, h3⟩
  · exact absurd h (h4 a)
  · rw [h] at hb
    obtain rfl := RunEnd.completed.inj hb
    exact ⟨h1, h3⟩

/-- Witness for C4 on a run where all external calls succeed. -/
theorem completed_run_appends_transcript_then_answer_witness :
    (runPipeline envAllOk none "hi".data).historyAppends
      = ["hi".data, postprocess_for_voice []] :=
  (completed_run_appends_transcript_then_answer envAllOk none "hi".data
    (postprocess_for_voice []) (by decide)).1

/-- Claim C5 (the shadowing bug, evaluated): the second `hybrid_search`
definition (retriever.py lines 108-115), which is the one bound at import
time, violates the stated contract: with corpus `["a","b"]` and `k = 1`, a
contract-respecting vector service returning index 0 and BM25 top-1
returning `"b"`, the result has 2 > k elements, is a bare text list without
scores, and the FAISS padding index `-1` is dereferenced to `docs[-1]` (the
last doc) instead of being dropped. -/
theorem hybrid_search_v2_breaks_contract :
    (hybrid_search_v2 ["a".data, "b".data] [0] ["b".data]).length = 2
    ∧ ¬((hybrid_search_v2 ["a".data, "b".data] [0] ["b".data]).length ≤ 1)
    ∧ pyIndex ["a".data, "b".data] (-1) = "b".data := by
  decide

/-- Claim C9: `MetricsCollector.summary` on a collector with zero runs is the
empty result; the zero-run guard makes the averaging divisions, which sit
only in the other branch, unreachable. -/
theorem summary_zero_runs (m : MetricsCollector) (h : m.runs = 0) :
    m.summary = none := by
  simp [MetricsCollector.summary, h]

/-- Witness for C9 at a concrete zero-run collector with nonzero totals. -/
theorem summary_zero_runs_witness :
    MetricsCollector.summary ⟨0, 5, 7⟩ = none :=
  summary_zero_runs ⟨0, 5, 7⟩ rfl

/-! ### Failure containment (C3) -/

theorem vectorResults_nil_docs (hits : List (ℚ × Int)) :
    vectorResults [] hits = [] := by
  rw [vectorResults, List.filterMap_eq_nil_iff]
  intro a _
  simp [lookupDoc]

theorem hybrid_search_nil_docs (env : RetrievalEnv) (q : Str) (k : ℕ)
    (h : env.docs = []) : hybrid_search env q k = [] := by
  unfold hybrid_search hybridFallback
  split
  · split
    next hits heq => rw [h]; exact vectorResults_nil_docs hits
    next e heq => simp [h]
  · simp [h]

/-- Claim C3 counterexample: with a configured Groq client whose API call
raises (the call at app.py line 39 is unguarded), the run aborts before
producing anything: no filler is dispatched, no final answer is spoken —
contradicting the claim that a failure of the filler branch's generation
leaves the run continuing with an empty or default filler. -/
theorem llm_failure_aborts_run :
    (runPipeline envLLMRaises none "hi".data).outcome = RunEnd.error "boom".data
    ∧ (runPipeline envLLMRaises none "hi".data).fillerDispatched = none
    ∧ (runPipeline envLLMRaises none "hi".data).finalSpoken = none := by
  decide

/-- Claim C3 (amended): failures are contained but not all are swallowed.
(i) With no LLM client configured, generation returns the sentinel string
and the run completes, filler included; (ii) retrieval never raises — with
an empty corpus every strategy yields no passages and the context list is
empty; (iii) with an empty context list the final generation still proceeds,
with an empty context block in its prompt; (iv) an exception raised by the
LLM API call itself, however, aborts the run — cleanly (no history append,
no metrics, no final speech), and it stays inside the run's task: the
caller of `handle_partial` never observes it. -/
theorem pipeline_failure_containment (env : PipelineEnv) (c : Option ℕ)
    (t : Str) :
    (∀ ctxs, env.llmClientAvailable = false → env.retrieveOutcome = .ok ctxs →
      (runPipeline env none t).outcome
          = RunEnd.completed (postprocess_for_voice sentinelLLM)
        ∧ (runPipeline env none t).fillerDispatched
          = some (fillerFirstSentence sentinelLLM))
    ∧ (∀ renv cenv hist q2, renv.docs = [] →
        retrieveAndRerank renv cenv hist q2 = [])
    ∧ (env.llmClientAvailable = false → env.retrieveOutcome = .ok [] →
      (runPipeline env none t).finalPromptUsed
        = some ("Context:\n\n\nQuestion: ".data ++ t))
    ∧ (∀ e, (runPipeline env c t).outcome = RunEnd.error e →
      (runPipeline env c t).historyAppends = []
      ∧ (runPipeline env c t).metricsRecorded = false
      ∧ (runPipeline env c t).finalSpoken = none) := by
  refine ⟨?_, ?_, ?_, ?_⟩
  · intro ctxs hclient hret
    simp [runPipeline, get_llm_response, hclient, hret]
  · intro renv cenv hist q2 hdocs
    show List.map Prod.snd (rerank cenv (rewrite_query q2 hist)
      (List.map Prod.snd (hybrid_search renv (rewrite_query q2 hist) 8)) 3) = []
    rw [hybrid_search_nil_docs renv _ 8 hdocs]
    simp [rerank]
  · intro hclient hret
    have hlit : "Context:\n".data ++ "\n\nQuestion: ".data
        = "Context:\n\n\nQuestion: ".data := by decide
    simp [runPipeline, get_llm_response, hclient, hret, finalPromptOf, joinSep,
      ← List.append_assoc, hlit]
  · intro e he
    rcases runPipeline_shape env c t with ⟨h1, h2, h3, _⟩ | ⟨a, ha, _, _, _⟩
    · exact ⟨h1, h2, h3⟩
    · rw [he] at ha
      exact absurd ha (by simp)

/-- Witness for C3 (amended): a client-less environment completes with the
sentinel answer and an empty context block; an empty corpus yields an empty
context list. -/
theorem pipeline_failure_containment_witness :
    (runPipeline envNoClient none "hi".data).outcome
      = RunEnd.completed (postprocess_for_voice sentinelLLM)
    ∧ retrieveAndRerank renvEmpty cenvNoModel [] "q".data = []
    ∧ (runPipeline envNoClient none "hi".data).finalPromptUsed
      = some ("Context:\n\n\nQuestion: ".data ++ "hi".data) :=
  ⟨((pipeline_failure_containment envNoClient none "hi".data).1 [] rfl rfl).1,
   (pipeline_failure_containment envNoClient none "hi".data).2.1
     renvEmpty cenvNoModel [] "q".data rfl,
   (pipeline_failure_containment envNoClient none "hi".data).2.2.1 rfl rfl⟩

/-! ### Reranker fallback (C6) -/

theorem rerank_fallback_filter_map (q : Str) (c : ℚ) (cs : List Str) :
    ((rerankFallbackScored q cs).filter (fun p => decide (p.1 = c))).map
        Prod.snd
      = cs.filter (fun d => decide ((overlapScore q d : ℚ) = c)) := by
  induction cs with
  | nil => rfl
  | cons d ds ih =>
    simp only [rerankFallbackScored, List.map_cons, List.filter_cons] at *
    by_cases h : (overlapScore q d : ℚ) = c
    · simp [h, ih]
    · simp [h, ih]

/-- Claim C6 counterexample: in the no-model fallback, a zero-overlap
candidate is NOT excluded — it is returned with score 0 — while retriever
strategy 3 (second conjunct), which the claim says `rerank` falls back to,
does exclude it. -/
theorem rerank_fallback_keeps_zero_overlap :
    rerank cenvNoModel "x".data ["y".data] 5 = [((0 : ℚ), "y".data)]
    ∧ lexicalResults ["y".data] "x".data 5 = [] := by
  decide

/-- Claim C6 (amended): when no cross-encoder model is available, `rerank`
falls back to lexical overlap scoring — each candidate's score is the number
of distinct common lowercase tokens with the query — but, unlike retrieval
strategy 3, candidates with zero overlap are NOT excluded: every candidate
is scored and kept (subject to the `top_k` cut), sorted descending with
ties broken by original candidate order (stability: for each score value,
the output candidates carrying that score are exactly the candidates with
that score in their original order). -/
theorem rerank_no_model_lexical_fallback (cenv : RerankEnv) (q : Str)
    (cs : List Str) (k : ℕ) (hm : cenv.modelAvailable = false) :
    (∀ p ∈ rerank cenv q cs k, p.2 ∈ cs ∧ p.1 = (overlapScore q p.2 : ℚ))
    ∧ scoresNonIncreasing (rerank cenv q cs k)
    ∧ (cs.length ≤ k → ∀ c : ℚ,
        ((rerank cenv q cs k).filter (fun p => p.1 = c)).map Prod.snd
          = cs.filter (fun d => (overlapScore q d : ℚ) = c)) := by
  have hre : rerank cenv q cs k
      = if cs = [] then []
        else (sortDescBy Prod.fst (rerankFallbackScored q cs)).take k := by
    unfold rerank
    rw [hm]
    simp
  refine ⟨?_, rerank_nonincreasing cenv q cs k, ?_⟩
  · intro p hp
    rw [hre] at hp
    by_cases hcs : cs = []
    · rw [if_pos hcs] at hp
      simp at hp
    · rw [if_neg hcs] at hp
      have hp2 : p ∈ sortDescBy Prod.fst (rerankFallbackScored q cs) :=
        List.mem_of_mem_take hp
      have hp3 : p ∈ rerankFallbackScored q cs :=
        (sortDescBy_perm Prod.fst _).mem_iff.mp hp2
      obtain ⟨d, hd, rfl⟩ := List.mem_map.mp hp3
      exact ⟨hd, rfl⟩
  · intro hlen c
    rw [hre]
    by_cases hcs : cs = []
    · rw [if_pos hcs, hcs]
      rfl
    · rw [if_neg hcs]
      rw [List.take_of_length_le]
      · rw [filter_sortDescBy Prod.fst _ _
          (fun a b ha hb => (of_decide_eq_true ha).trans
            (of_decide_eq_true hb).symm)]
        exact rerank_fallback_filter_map q c cs
      · rw [(sortDescBy_perm Prod.fst _).length_eq]
        unfold rerankFallbackScored
        rw [List.length_map]
        exact hlen

/-- Witness for C6 (amended): three candidates, one with zero overlap; the
zero-overlap candidate is kept with score 0 and original order is preserved
among equal scores. -/
theorem rerank_no_model_lexical_fallback_witness :
    ((rerank cenvNoModel "a b".data ["b a".data, "z".data, "a".data] 3).filter
        (fun p => p.1 = (0 : ℚ))).map Prod.snd = ["z".data] := by
  have h := (rerank_no_model_lexical_fallback cenvNoModel "a b".data
    ["b a".data, "z".data, "a".data] 3 rfl).2.2 (by decide) 0
  exact h.trans (by decide)

/-! ### Query rewriter (C7, C10) -/

/-- Claim C7: `rewrite_query` returns the query unchanged whenever history is
empty; when history is non-empty and the lowercased query contains one of
the fixed strings `it, that, this, they, them, second, first`, it returns
the query with a parenthetical context marker built from the most recent
history entry appended; otherwise it returns the query unchanged. -/
theorem rewrite_query_spec (q : Str) (h : List Str) :
    (h = [] → rewrite_query q h = q)
    ∧ (h ≠ [] → (∃ p ∈ pronouns, containsSub p (pyLower q) = true) →
        rewrite_query q h
          = q ++ " (context: ".data ++ h.getLastD [] ++ ")".data)
    ∧ (h ≠ [] → (∀ p ∈ pronouns, containsSub p (pyLower q) = false) →
        rewrite_query q h = q) := by
  refine ⟨?_, ?_, ?_⟩
  · intro he
    simp [rewrite_query, he]
  · intro hne hex
    have ha : pronouns.any (fun p => containsSub p (pyLower q)) = true :=
      List.any_eq_true.mpr hex
    simp [rewrite_query, hne, ha]
  · intro hne hall
    have ha : pronouns.any (fun p => containsSub p (pyLower q)) = false := by
      rw [← Bool.not_eq_true, List.any_eq_true]
      rintro ⟨p, hp, hc⟩
      rw [hall p hp] at hc
      exact Bool.false_ne_true hc
    simp [rewrite_query, hne, ha]

/-- Witness for C7: the spec's own example, plus the empty-history case. -/
theorem rewrite_query_spec_witness :
    rewrite_query "what about it?".data ["I bought a car".data]
      = "what about it? (context: I bought a car)".data
    ∧ rewrite_query "hello".data [] = "hello".data :=
  ⟨((rewrite_query_spec "what about it?".data ["I bought a car".data]).2.1
      (by decide) ⟨"it".data, by decide, by decide⟩).trans (by decide),
   (rewrite_query_spec "hello".data []).1 rfl⟩

/-- Claim C10 (implicit): the rewriter's pronoun test is a case-insensitive
substring check, not a word match — with non-empty history, a query is
rewritten to exactly `query ++ " (context: " ++ last ++ ")"` precisely when
one of the fixed strings occurs anywhere inside the lowercased query (also
inside a longer word, e.g. `it` inside `with`), and returned unchanged
otherwise. -/
theorem rewrite_query_substring_semantics (q : Str) (h : List Str)
    (hne : h ≠ []) :
    rewrite_query q h
      = if ∃ p ∈ pronouns, containsSub p (pyLower q) = true then
          q ++ " (context: ".data ++ h.getLastD [] ++ ")".data
        else q := by
  by_cases hex : ∃ p ∈ pronouns, containsSub p (pyLower q) = true
  · rw [if_pos hex]
    have ha : pronouns.any (fun p => containsSub p (pyLower q)) = true :=
      List.any_eq_true.mpr hex
    simp [rewrite_query, hne, ha]
  · rw [if_neg hex]
    have ha : pronouns.any (fun p => containsSub p (pyLower q)) = false := by
      rw [← Bool.not_eq_true, List.any_eq_true]
      exact hex
    simp [rewrite_query, hne, ha]

/-- Witness for C10: `it` occurs inside `with` and `first` inside `firstly`,
so both queries are rewritten; a query containing none of the strings is
unchanged. -/
theorem rewrite_query_substring_semantics_witness :
    rewrite_query "with".data ["X".data] = "with (context: X)".data
    ∧ rewrite_query "firstly, go".data ["Y".data]
      = "firstly, go (context: Y)".data
    ∧ rewrite_query "hello world".data ["Z".data] = "hello world".data :=
  ⟨(rewrite_query_substring_semantics "with".data ["X".data]
      (by decide)).trans (by decide),
   (rewrite_query_substring_semantics "firstly, go".data ["Y".data]
      (by decide)).trans (by decide),
   (rewrite_query_substring_semantics "hello world".data ["Z".data]
      (by decide)).trans (by decide)⟩

/-! ### C8 lemma stack, part 1: joins and words -/

theorem pyWordsAux_nil (cur : Str) :
    pyWordsAux cur [] = if cur = [] then [] else [cur.reverse] := rfl

theorem pyWordsAux_cons (cur : Str) (c : Char) (rest : Str) :
    pyWordsAux cur (c :: rest)
      = if isPySpace c then
          (if cur = [] then pyWordsAux [] rest
           else cur.reverse :: pyWordsAux [] rest)
        else pyWordsAux (c :: cur) rest := rfl

theorem joinSpace_cons₂ (w v : Str) (ws : List Str) :
    joinSpace (w :: v :: ws) = w ++ ' ' :: joinSpace (v :: ws) := by
  show (w ++ [' ']) ++ joinSep [' '] (v :: ws) = _
  rw [List.append_assoc]
  rfl

theorem joinSpace_append (L₁ L₂ : List Str) (h₁ : L₁ ≠ []) (h₂ : L₂ ≠ []) :
    joinSpace (L₁ ++ L₂) = joinSpace L₁ ++ ' ' :: joinSpace L₂ := by
  induction L₁ with
  | nil => exact absurd rfl h₁
  | cons w L ih =>
    cases L with
    | nil =>
      cases L₂ with
      | nil => exact absurd rfl h₂
      | cons v l => exact joinSpace_cons₂ w v l
    | cons v L' =>
      calc joinSpace ((w :: v :: L') ++ L₂)
          = w ++ ' ' :: joinSpace ((v :: L') ++ L₂) := joinSpace_cons₂ _ _ _
        _ = w ++ ' ' :: (joinSpace (v :: L') ++ ' ' :: joinSpace L₂) := by
            rw [ih (by simp)]
        _ = joinSpace (w :: v :: L') ++ ' ' :: joinSpace L₂ := by
            rw [joinSpace_cons₂]
            simp [List.append_assoc]

theorem joinSpace_flatten (gs : List (List Str)) (h : ∀ g ∈ gs, g ≠ []) :
    joinSpace (gs.map joinSpace) = joinSpace gs.flatten := by
  induction gs with
  | nil => rfl
  | cons g gs' ih =>
    cases gs' with
    | nil => simp [joinSpace, joinSep]
    | cons g₂ gs'' =>
      have hg : g ≠ [] := h g (by simp)
      have hj : (g₂ :: gs'').flatten ≠ [] := by
        have hne : g₂ ≠ [] := h g₂ (by simp)
        simp only [List.flatten_cons]
        intro hc
        exact hne (List.append_eq_nil.mp hc).1
      calc joinSpace ((g :: g₂ :: gs'').map joinSpace)
          = joinSpace g ++ ' ' :: joinSpace ((g₂ :: gs'').map joinSpace) :=
            joinSpace_cons₂ _ _ _
        _ = joinSpace g ++ ' ' :: joinSpace (g₂ :: gs'').flatten := by
            rw [ih (fun x hx => h x (List.mem_cons_of_mem g hx))]
        _ = joinSpace (g ++ (g₂ :: gs'').flatten) := by
            rw [joinSpace_append g _ hg hj]
        _ = joinSpace (g :: g₂ :: gs'').flatten := by simp

theorem pyWordsAux_word (w : Str) (hw : ∀ c ∈ w, isPySpace c = false) :
    ∀ (cur s : Str), pyWordsAux cur (w ++ s) = pyWordsAux (w.reverse ++ cur) s := by
  induction w with
  | nil => intro cur s; rfl
  | cons c w' ih =>
    intro cur s
    have hc : isPySpace c = false := hw c (List.mem_cons_self c w')
    show pyWordsAux cur (c :: (w' ++ s)) = _
    rw [pyWordsAux_cons, hc]
    simp only [Bool.false_eq_true, if_false]
    rw [ih (fun d hd => hw d (List.mem_cons_of_mem c hd)) (c :: cur) s]
    simp

theorem pyWords_space_cons (c : Char) (x : Str) (hc : isPySpace c = true) :
    pyWords (c :: x) = pyWords x := by
  show pyWordsAux [] (c :: x) = pyWordsAux [] x
  rw [pyWordsAux_cons, hc]
  simp

theorem pyWords_word_prefix (w r : Str) (hw : goodWord w)
    (hr : r = [] ∨ ∃ c r', r = c :: r' ∧ isPySpace c = true) :
    pyWords (w ++ r) = w :: pyWords r := by
  have h2 := pyWordsAux_word w hw.2 [] r
  rw [List.append_nil] at h2
  show pyWordsAux [] (w ++ r) = _
  rw [h2]
  have hwr : w.reverse ≠ [] := by simpa using hw.1
  rcases hr with rfl | ⟨c, r', rfl, hc⟩
  · rw [pyWordsAux_nil, if_neg hwr]
    simp [pyWords, pyWordsAux_nil]
  · rw [pyWordsAux_cons, hc, if_pos rfl, if_neg hwr, List.reverse_reverse]
    show _ = w :: pyWordsAux [] (c :: r')
    rw [pyWordsAux_cons, hc]
    simp

theorem pyWordsAux_good : ∀ (s cur : Str), (∀ c ∈ cur, isPySpace c = false) →
    ∀ w ∈ pyWordsAux cur s, goodWord w := by
  intro s
  induction s with
  | nil =>
    intro cur hcur w hw
    rw [pyWordsAux_nil] at hw
    split at hw
    · exact absurd hw (List.not_mem_nil w)
    · rw [List.mem_singleton] at hw
      subst hw
      exact ⟨by simpa using ‹¬cur = []›, fun c hc => hcur c (by simpa using hc)⟩
  | cons c s' ih =>
    intro cur hcur w hw
    rw [pyWordsAux_cons] at hw
    by_cases hc : isPySpace c = true
    · rw [hc, if_pos rfl] at hw
      by_cases hcur0 : cur = []
      · rw [if_pos hcur0] at hw
        exact ih [] (by simp) w hw
      · rw [if_neg hcur0] at hw
        rcases List.mem_cons.mp hw with rfl | hw'
        · exact ⟨by simpa using hcur0, fun d hd => hcur d (by simpa using hd)⟩
        · exact ih [] (by simp) w hw'
    · rw [if_neg (by simpa using hc)] at hw
      refine ih (c :: cur) ?_ w hw
      intro d hd
      rcases List.mem_cons.mp hd with rfl | hd'
      · simpa using hc
      · exact hcur d hd'

theorem pyWords_good (s : Str) : ∀ w ∈ pyWords s, goodWord w :=
  pyWordsAux_good s [] (by simp)

theorem pyWords_joinSpace (ws : List Str) (h : ∀ w ∈ ws, goodWord w) :
    pyWords (joinSpace ws) = ws := by
  induction ws with
  | nil => rfl
  | cons w ws' ih =>
    cases ws' with
    | nil =>
      have h2 := pyWords_word_prefix w [] (h w (by simp)) (Or.inl rfl)
      simpa using h2
    | cons v ws'' =>
      rw [joinSpace_cons₂,
        show w ++ ' ' :: joinSpace (v :: ws'')
          = w ++ (' ' :: joinSpace (v :: ws'')) from rfl,
        pyWords_word_prefix w (' ' :: joinSpace (v :: ws'')) (h w (by simp))
          (Or.inr ⟨' ', joinSpace (v :: ws''), rfl, rfl⟩),
        pyWords_space_cons ' ' _ rfl,
        ih (fun x hx => h x (List.mem_cons_of_mem w hx))]

/-! ### C8 lemma stack, part 2: whitespace normalization as word join -/

theorem collapseWs_one (c : Char) :
    collapseWs [c] = if isPySpace c then [' '] else [c] := rfl

theorem collapseWs_cons₂ (c d : Char) (r : Str) :
    collapseWs (c :: d :: r)
      = if isPySpace c then
          (if isPySpace d then collapseWs (d :: r) else ' ' :: collapseWs (d :: r))
        else c :: collapseWs (d :: r) := rfl

theorem collapseWs_cons_nonspace (c : Char) (x : Str) (hc : isPySpace c = false) :
    collapseWs (c :: x) = c :: collapseWs x := by
  cases x with
  | nil => rw [collapseWs_one, hc]; rfl
  | cons d r => rw [collapseWs_cons₂, hc]; rfl

theorem collapseWs_word_prefix (w x : Str) (hw : ∀ c ∈ w, isPySpace c = false) :
    collapseWs (w ++ x) = w ++ collapseWs x := by
  induction w with
  | nil => rfl
  | cons c w' ih =>
    have hc : isPySpace c = false := hw c (List.mem_cons_self c w')
    show collapseWs (c :: (w' ++ x)) = _
    rw [collapseWs_cons_nonspace c _ hc,
      ih (fun d hd => hw d (List.mem_cons_of_mem c hd))]
    rfl

theorem collapseWs_space_head :
    ∀ (r : Str) (c : Char), isPySpace c = true →
      collapseWs (c :: r) = ' ' :: collapseWs (r.dropWhile isPySpace) := by
  intro r
  induction r with
  | nil => intro c hc; rw [collapseWs_one, hc]; rfl
  | cons d r' ih =>
    intro c hc
    rw [collapseWs_cons₂, hc, if_pos rfl]
    by_cases hd : isPySpace d = true
    · rw [if_pos hd, ih d hd]
      simp [List.dropWhile_cons, hd]
    · rw [if_neg (by simpa using hd)]
      simp [List.dropWhile_cons, hd]

theorem dropWhile_of_forall_false {p : Char → Bool} {l : Str}
    (h : ∀ x ∈ l, p x = false) : l.dropWhile p = l := by
  cases l with
  | nil => rfl
  | cons a l' => simp [List.dropWhile_cons, h a (List.mem_cons_self a l')]

theorem dropWhile_head_not (p : Char → Bool) (l : Str) :
    l.dropWhile p = [] ∨ ∃ a l', l.dropWhile p = a :: l' ∧ p a = false := by
  induction l with
  | nil => exact Or.inl rfl
  | cons a l' ih =>
    by_cases ha : p a = true
    · simpa [List.dropWhile_cons, ha] using ih
    · exact Or.inr ⟨a, l', by simp [List.dropWhile_cons, ha], by simpa using ha⟩

theorem dropWhile_append_of_ne_nil {p : Char → Bool} (A B : Str)
    (h : A.dropWhile p ≠ []) :
    (A ++ B).dropWhile p = A.dropWhile p ++ B := by
  induction A with
  | nil => exact absurd rfl h
  | cons a A' ih =>
    by_cases ha : p a = true
    · rw [List.cons_append, List.dropWhile_cons, if_pos ha]
      rw [List.dropWhile_cons, if_pos ha] at h ⊢
      exact ih h
    · rw [List.cons_append, List.dropWhile_cons, if_neg ha,
        List.dropWhile_cons, if_neg ha]
      simp

theorem pyStrip_cons_space (c : Char) (x : Str) (hc : isPySpace c = true) :
    pyStrip (c :: x) = pyStrip x := by
  unfold pyStrip
  rw [List.dropWhile_cons, if_pos hc]

theorem pyStrip_goodword (w : Str) (hw : ∀ c ∈ w, isPySpace c = false) :
    pyStrip w = w := by
  unfold pyStrip
  rw [dropWhile_of_forall_false hw,
    dropWhile_of_forall_false (fun c hc => hw c (List.mem_reverse.mp hc)),
    List.reverse_reverse]

theorem pyStrip_word_trailing_space (w : Str) (hw : goodWord w) :
    pyStrip (w ++ [' ']) = w := by
  obtain ⟨a, w', rfl⟩ := List.exists_cons_of_ne_nil hw.1
  have ha : isPySpace a = false := hw.2 a (List.mem_cons_self a w')
  unfold pyStrip
  rw [List.cons_append, List.dropWhile_cons, if_neg (by simp [ha]),
    ← List.cons_append, List.reverse_append]
  show ((' ' :: (a :: w').reverse).dropWhile isPySpace).reverse = _
  rw [List.dropWhile_cons, if_pos (show isPySpace ' ' = true from rfl),
    dropWhile_of_forall_false (fun c hc => hw.2 c (List.mem_reverse.mp hc)),
    List.reverse_reverse]

theorem pyStrip_word_space (w z : Str) (hw : goodWord w)
    (hz : ∃ e z', z = e :: z' ∧ isPySpace e = false) :
    pyStrip (w ++ ' ' :: z) = w ++ ' ' :: pyStrip z := by
  obtain ⟨e, z', rfl, he⟩ := hz
  obtain ⟨a, w', rfl⟩ := List.exists_cons_of_ne_nil hw.1
  have ha : isPySpace a = false := hw.2 a (List.mem_cons_self a w')
  have hdz : List.dropWhile isPySpace (e :: z') = e :: z' := by
    rw [List.dropWhile_cons, if_neg (by simp [he])]
  have hrz : List.dropWhile isPySpace (e :: z').reverse ≠ [] := by
    intro hcon
    have hall : ∀ x ∈ (e :: z').reverse, isPySpace x = true :=
      List.dropWhile_eq_nil_iff.mp hcon
    have he2 := hall e (by simp)
    rw [he] at he2
    exact Bool.false_ne_true he2
  unfold pyStrip
  rw [show (a :: w') ++ ' ' :: e :: z' = a :: (w' ++ ' ' :: e :: z') from rfl,
    List.dropWhile_cons, if_neg (by simp [ha]), hdz]
  rw [show a :: (w' ++ ' ' :: e :: z')
      = ((a :: w') ++ [' ']) ++ (e :: z') from by simp,
    List.reverse_append,
    dropWhile_append_of_ne_nil _ _ hrz,
    List.reverse_append, List.reverse_append]
  simp

theorem pyWordsAux_ne_nil (s : Str) : ∀ (cur : Str), cur ≠ [] →
    pyWordsAux cur s ≠ [] := by
  induction s with
  | nil =>
    intro cur hcur
    rw [pyWordsAux_nil, if_neg hcur]
    simp
  | cons c s' ih =>
    intro cur hcur
    rw [pyWordsAux_cons]
    by_cases hc : isPySpace c = true
    · rw [hc, if_pos rfl, if_neg hcur]
      simp
    · rw [if_neg (by simpa using hc)]
      exact ih (c :: cur) (by simp)

theorem pyWords_ne_nil_of_nonspace_head (f : Char) (x : Str)
    (hf : isPySpace f = false) : pyWords (f :: x) ≠ [] := by
  show pyWordsAux [] (f :: x) ≠ []
  rw [pyWordsAux_cons, hf]
  simp only [Bool.false_eq_true, if_false]
  exact pyWordsAux_ne_nil x [f] (by simp)

theorem pyWords_dropWhile_sp (r : Str) :
    pyWords (r.dropWhile isPySpace) = pyWords r := by
  induction r with
  | nil => rfl
  | cons c r' ih =>
    by_cases hc : isPySpace c = true
    · rw [List.dropWhile_cons, if_pos hc, ih, pyWords_space_cons c r' hc]
    · rw [List.dropWhile_cons, if_neg hc]

theorem normWs_words : ∀ (n : ℕ) (t : Str), t.length ≤ n →
    normWs t = joinSpace (pyWords t) := by
  intro n
  induction n with
  | zero =>
    intro t ht
    rw [List.length_eq_zero.mp (Nat.le_zero.mp ht)]
    rfl
  | succ n ih =>
    intro t ht
    cases t with
    | nil => rfl
    | cons c rest =>
      have hrest : rest.length ≤ n := by
        simpa using Nat.lt_succ_iff.mp (Nat.lt_of_lt_of_le (by simp) ht)
      by_cases hc : isPySpace c = true
      · have hdlen : (rest.dropWhile isPySpace).length ≤ n :=
          le_trans (List.Sublist.length_le (List.dropWhile_sublist isPySpace))
            hrest
        rw [show normWs (c :: rest)
            = pyStrip (collapseWs (c :: rest)) from rfl,
          collapseWs_space_head rest c hc, pyStrip_cons_space ' ' _ rfl,
          show pyStrip (collapseWs (rest.dropWhile isPySpace))
            = normWs (rest.dropWhile isPySpace) from rfl,
          ih _ hdlen, pyWords_dropWhile_sp, pyWords_space_cons c rest hc]
      · have hc' : isPySpace c = false := by simpa using hc
        have hsplit : rest.takeWhile (fun d => !isPySpace d)
            ++ rest.dropWhile (fun d => !isPySpace d) = rest :=
          List.takeWhile_append_dropWhile (fun d => !isPySpace d) rest
        have hwgood : goodWord (c :: rest.takeWhile (fun d => !isPySpace d)) := by
          refine ⟨by simp, ?_⟩
          intro d hd
          rcases List.mem_cons.mp hd with rfl | hd'
          · exact hc'
          · simpa using List.mem_takeWhile_imp hd'
        have hrshape : rest.dropWhile (fun d => !isPySpace d) = []
            ∨ ∃ e r', rest.dropWhile (fun d => !isPySpace d) = e :: r'
                ∧ isPySpace e = true := by
          rcases dropWhile_head_not (fun d => !isPySpace d) rest with h0 | h0
          · exact Or.inl h0
          · obtain ⟨a, l', hl, hpa⟩ := h0
            exact Or.inr ⟨a, l', hl, by simpa using hpa⟩
        have ht2 : (c :: rest) = (c :: rest.takeWhile (fun d => !isPySpace d))
            ++ rest.dropWhile (fun d => !isPySpace d) := by
          rw [List.cons_append, hsplit]
        rw [ht2,
          show normWs ((c :: rest.takeWhile (fun d => !isPySpace d))
              ++ rest.dropWhile (fun d => !isPySpace d))
            = pyStrip (collapseWs ((c :: rest.takeWhile (fun d => !isPySpace d))
              ++ rest.dropWhile (fun d => !isPySpace d))) from rfl,
          collapseWs_word_prefix _ _ hwgood.2,
          pyWords_word_prefix _ _ hwgood
            (by
              rcases hrshape with h0 | ⟨e, r', h0, he⟩
              · exact Or.inl h0
              · exact Or.inr ⟨e, r', h0, he⟩)]
        rcases hrshape with h0 | ⟨e, r', h0, he⟩
        · rw [h0, show collapseWs [] = [] from rfl, List.append_nil,
            pyStrip_goodword _ hwgood.2,
            show pyWords ([] : Str) = [] from rfl]
          rfl
        · rw [h0, collapseWs_space_head r' e he]
          have hr'len : r'.length < rest.length := by
            have hle : (e :: r').length ≤ rest.length :=
              h0 ▸ List.Sublist.length_le (List.dropWhile_sublist _)
            simpa using hle
          have hr₂len : (r'.dropWhile isPySpace).length ≤ n :=
            le_trans
              (List.Sublist.length_le (List.dropWhile_sublist isPySpace))
              (le_trans (Nat.le_of_lt hr'len) hrest)
          have hpw : pyWords (e :: r') = pyWords (r'.dropWhile isPySpace) := by
            rw [pyWords_space_cons e r' he, pyWords_dropWhile_sp]
          rcases dropWhile_head_not isPySpace r' with h1 | ⟨f, r₃, h1, hf⟩
          · rw [h1, show collapseWs [] = [] from rfl,
              show (' ' :: ([] : Str)) = [' '] from rfl,
              pyStrip_word_trailing_space _ hwgood, hpw, h1,
              show pyWords ([] : Str) = [] from rfl]
            rfl
          · have hz : ∃ g z',
                collapseWs (r'.dropWhile isPySpace) = g :: z'
                  ∧ isPySpace g = false := by
              rw [h1, collapseWs_cons_nonspace f r₃ hf]
              exact ⟨f, collapseWs r₃, rfl, hf⟩
            rw [pyStrip_word_space _ _ hwgood hz,
              show pyStrip (collapseWs (r'.dropWhile isPySpace))
                = normWs (r'.dropWhile isPySpace) from rfl,
              ih _ hr₂len, hpw]
            have hpwne : pyWords (r'.dropWhile isPySpace) ≠ [] := by
              rw [h1]
              exact pyWords_ne_nil_of_nonspace_head f r₃ hf
            obtain ⟨v, L, hvL⟩ :=
              List.exists_cons_of_ne_nil hpwne
            rw [hvL, joinSpace_cons₂]

/-- The canonical form: `re.sub(r"\s+", " ", t).strip()` equals the words of
`t` joined by single spaces. -/
theorem normWs_eq_joinSpace_pyWords (t : Str) :
    normWs t = joinSpace (pyWords t) :=
  normWs_words t.length t le_rfl

/-! ### C8 lemma stack, part 3: sentence splitting over joined words -/

theorem sentM_nil (skip : Bool) (acc : Str) :
    sentM skip acc [] = [acc.reverse] := rfl

theorem sentM_one (skip : Bool) (acc : Str) (c : Char) :
    sentM skip acc [c]
      = if skip && c == ' ' then [acc.reverse] else [(c :: acc).reverse] := rfl

theorem sentM_cons₂ (skip : Bool) (acc : Str) (c d : Char) (rest : Str) :
    sentM skip acc (c :: d :: rest)
      = if skip && c == ' ' then sentM skip acc (d :: rest)
        else if isPunct c && d == ' ' then
          (c :: acc).reverse :: sentM true [] (d :: rest)
        else sentM false (c :: acc) (d :: rest) := rfl

theorem beq_space_false {c : Char} (hc : isPySpace c = false) :
    (c == ' ') = false := by
  cases h2 : (c == ' ') with
  | false => rfl
  | true =>
    have := eq_of_beq h2
    subst this
    exact absurd hc (by simp [isPySpace])

theorem endsPunct_one (c : Char) : endsPunct [c] = isPunct c := rfl

theorem endsPunct_cons₂ (c v : Char) (w : Str) :
    endsPunct (c :: v :: w) = endsPunct (v :: w) := by
  unfold endsPunct
  rw [List.getLast?_cons_cons]

theorem sentM_word_all (w : Str) (hw : ∀ c ∈ w, isPySpace c = false) :
    ∀ acc, sentM false acc w = [acc.reverse ++ w] := by
  induction w with
  | nil => intro acc; simp [sentM_nil]
  | cons c w' ih =>
    intro acc
    cases w' with
    | nil => simp [sentM_one]
    | cons d w'' =>
      have hd : (d == ' ') = false :=
        beq_space_false (hw d (List.mem_cons_of_mem c (List.mem_cons_self d w'')))
      rw [sentM_cons₂]
      simp only [Bool.false_and, Bool.false_eq_true, if_false, hd,
        Bool.and_false]
      rw [ih (fun e he => hw e (List.mem_cons_of_mem c he)) (c :: acc)]
      simp

theorem sentM_word_sep (w0 : Str) : ∀ (c0 : Char),
    (∀ c ∈ c0 :: w0, isPySpace c = false) → ∀ (acc t' : Str),
    sentM false acc ((c0 :: w0) ++ ' ' :: t')
      = if endsPunct (c0 :: w0) then
          (acc.reverse ++ (c0 :: w0)) :: sentM true [] (' ' :: t')
        else sentM false (' ' :: ((c0 :: w0).reverse ++ acc)) t' := by
  induction w0 with
  | nil =>
    intro c0 hw acc t'
    rw [show ([c0] ++ ' ' :: t') = c0 :: ' ' :: t' from rfl, sentM_cons₂]
    simp only [Bool.false_and, Bool.false_eq_true, if_false]
    rw [show ((' ' : Char) == ' ') = true from rfl, Bool.and_true,
      endsPunct_one]
    by_cases hp : isPunct c0 = true
    · rw [hp]
      simp
    · rw [if_neg (by simpa using hp), if_neg (by simpa using hp)]
      cases t' with
      | nil => simp [sentM_one, sentM_nil]
      | cons u t'' =>
        rw [sentM_cons₂]
        simp [show isPunct ' ' = false from rfl]
  | cons v w'' ih =>
    intro c0 hw acc t'
    have hv : (v == ' ') = false :=
      beq_space_false (hw v (List.mem_cons_of_mem c0 (List.mem_cons_self v w'')))
    rw [show ((c0 :: v :: w'') ++ ' ' :: t') = c0 :: v :: (w'' ++ ' ' :: t')
        from by simp, sentM_cons₂]
    simp only [Bool.false_and, Bool.false_eq_true, if_false, hv,
      Bool.and_false]
    rw [show (v :: (w'' ++ ' ' :: t')) = (v :: w'') ++ ' ' :: t' from by simp,
      ih v (fun e he => hw e (List.mem_cons_of_mem c0 he)) (c0 :: acc) t',
      endsPunct_cons₂]
    by_cases hp : endsPunct (v :: w'') = true
    · rw [hp]
      simp
    · rw [if_neg (by simpa using hp), if_neg (by simpa using hp)]
      simp

theorem sentM_skip_to_scan (acc : Str) (f : Char) (x : Str) :
    sentM true acc (' ' :: f :: x) = sentM true acc (f :: x) := by
  rw [sentM_cons₂]
  simp

theorem sentM_true_false (acc : Str) (f : Char) (x : Str)
    (hf : (f == ' ') = false) :
    sentM true acc (f :: x) = sentM false acc (f :: x) := by
  cases x with
  | nil => simp [sentM_one, hf]
  | cons d x' => simp [sentM_cons₂, hf]

theorem pfx_append (cur : List Str) (hcur : ∀ w ∈ cur, goodWord w) (w : Str) :
    pfxOf cur ++ w = joinSpace (cur.reverse ++ [w]) := by
  by_cases h : cur = []
  · subst h
    simp [pfxOf, joinSpace, joinSep]
  · rw [pfxOf, if_neg h,
      joinSpace_append cur.reverse [w] (by simpa using h) (by simp)]
    simp [joinSpace, joinSep]

theorem joinSpace_head_nonspace (v : Str) (ws : List Str) (hv : goodWord v) :
    ∃ f x, joinSpace (v :: ws) = f :: x ∧ isPySpace f = false := by
  obtain ⟨fv, v', rfl⟩ := List.exists_cons_of_ne_nil hv.1
  have hf : isPySpace fv = false := hv.2 fv (List.mem_cons_self fv v')
  cases ws with
  | nil => exact ⟨fv, v', rfl, hf⟩
  | cons u ws' =>
    rw [joinSpace_cons₂]
    exact ⟨fv, v' ++ ' ' :: joinSpace (u :: ws'), rfl, hf⟩

theorem sentM_joinSpace : ∀ (ws : List Str) (cur : List Str),
    (∀ w ∈ ws, goodWord w) → (∀ w ∈ cur, goodWord w) →
    (cur ≠ [] → ws ≠ []) →
    sentM false (pfxOf cur).reverse (joinSpace ws)
      = (groupSentsAux cur ws).map joinSpace := by
  intro ws
  induction ws with
  | nil =>
    intro cur _ _ hside
    have hcur : cur = [] := by
      by_contra hc
      exact (hside hc) rfl
    subst hcur
    rfl
  | cons w ws' ih =>
    intro cur hws hcur _
    have hwgood : goodWord w := hws w (List.mem_cons_self w ws')
    cases ws' with
    | nil =>
      rw [show joinSpace [w] = w from rfl,
        sentM_word_all w hwgood.2 (pfxOf cur).reverse, List.reverse_reverse,
        pfx_append cur hcur w,
        show groupSentsAux cur [w] = [(w :: cur).reverse] from rfl]
      simp
    | cons v ws'' =>
      have hvgood : goodWord v :=
        hws v (List.mem_cons_of_mem w (List.mem_cons_self v ws''))
      obtain ⟨c0, w0, rfl⟩ := List.exists_cons_of_ne_nil hwgood.1
      rw [joinSpace_cons₂,
        show ((c0 :: w0) ++ ' ' :: joinSpace (v :: ws''))
          = (c0 :: w0) ++ ' ' :: joinSpace (v :: ws'') from rfl,
        sentM_word_sep w0 c0 hwgood.2 (pfxOf cur).reverse
          (joinSpace (v :: ws'')), List.reverse_reverse]
      obtain ⟨f, x, hfx, hf⟩ := joinSpace_head_nonspace v ws'' hvgood
      by_cases hp : endsPunct (c0 :: w0) = true
      · rw [if_pos hp]
        rw [hfx, sentM_skip_to_scan, sentM_true_false [] f x (beq_space_false hf),
          ← hfx,
          show ([] : Str) = (pfxOf []).reverse from rfl,
          ih [] (fun u hu => hws u (List.mem_cons_of_mem _ hu)) (by simp)
            (by intro hc; exact absurd rfl hc)]
        rw [pfx_append cur hcur (c0 :: w0)]
        show _ = (groupSentsAux cur ((c0 :: w0) :: v :: ws'')).map joinSpace
        rw [show groupSentsAux cur ((c0 :: w0) :: v :: ws'')
            = ((c0 :: w0) :: cur).reverse :: groupSentsAux [] (v :: ws'')
          from by rw [groupSentsAux, if_pos hp]]
        simp
      · rw [if_neg (by simpa using hp)]
        have hacc : (' ' :: ((c0 :: w0).reverse ++ (pfxOf cur).reverse))
            = (pfxOf ((c0 :: w0) :: cur)).reverse := by
          rw [show pfxOf ((c0 :: w0) :: cur)
              = joinSpace (((c0 :: w0) :: cur).reverse) ++ [' ']
            from by rw [pfxOf, if_neg (by simp)],
            show ((c0 :: w0) :: cur).reverse = cur.reverse ++ [c0 :: w0]
              from by simp,
            ← pfx_append cur hcur (c0 :: w0)]
          simp
        rw [hacc,
          ih ((c0 :: w0) :: cur)
            (fun u hu => hws u (List.mem_cons_of_mem _ hu))
            (by
              intro u hu
              rcases List.mem_cons.mp hu with rfl | hu'
              · exact hwgood
              · exact hcur u hu')
            (by intro _; simp)]
        show _ = (groupSentsAux cur ((c0 :: w0) :: v :: ws'')).map joinSpace
        rw [show groupSentsAux cur ((c0 :: w0) :: v :: ws'')
            = groupSentsAux ((c0 :: w0) :: cur) (v :: ws'')
          from by rw [groupSentsAux, if_neg (by simpa using hp)]]

/-- Splitting a space-join of good words yields exactly the joined sentence
groups. -/
theorem splitSent_joinSpace (ws : List Str) (h : ∀ w ∈ ws, goodWord w) :
    splitSent (joinSpace ws) = (groupSents ws).map joinSpace := by
  show sentM false [] (joinSpace ws) = _
  rw [show ([] : Str) = (pfxOf []).reverse from rfl,
    sentM_joinSpace ws [] h (by simp) (by intro hc; exact absurd rfl hc)]
  rfl

/-! ### C8 lemma stack, part 4: group roundtrip, invariants, truncation -/

theorem groupSentsAux_cons₂ (cur : List Str) (w v : Str) (ws : List Str) :
    groupSentsAux cur (w :: v :: ws)
      = if endsPunct w then (w :: cur).reverse :: groupSentsAux [] (v :: ws)
        else groupSentsAux (w :: cur) (v :: ws) := rfl

theorem groupSentsAux_ne_nil (ws : List Str) : ∀ cur,
    groupSentsAux cur ws ≠ [] := by
  induction ws with
  | nil => intro cur; simp [groupSentsAux]
  | cons w ws' ih =>
    intro cur
    cases ws' with
    | nil => simp [groupSentsAux]
    | cons v ws'' =>
      rw [groupSentsAux_cons₂]
      by_cases hp : endsPunct w = true
      · rw [hp]
        simp
      · rw [if_neg (by simpa using hp)]
        exact ih (w :: cur)

theorem dropLast_cons₂ (w v : Str) (g : List Str) :
    (w :: v :: g).dropLast = w :: (v :: g).dropLast := rfl

theorem getLastD_cons₂ (w v : Str) (g : List Str) :
    (w :: v :: g).getLastD [] = (v :: g).getLastD [] := by
  rw [List.getLastD_eq_getLast?, List.getLastD_eq_getLast?,
    List.getLast?_cons_cons]

theorem groupSentsAux_final (g : List Str) : g ≠ [] →
    (∀ w ∈ g.dropLast, endsPunct w = false) →
    ∀ cur, groupSentsAux cur g = [cur.reverse ++ g] := by
  induction g with
  | nil => intro h; exact absurd rfl h
  | cons w g' ih =>
    intro _ hmid cur
    cases g' with
    | nil =>
      show [(w :: cur).reverse] = [cur.reverse ++ [w]]
      simp
    | cons v g'' =>
      have hw : endsPunct w = false := by
        refine hmid w ?_
        rw [dropLast_cons₂]
        exact List.mem_cons_self w _
      rw [groupSentsAux_cons₂, hw]
      simp only [Bool.false_eq_true, if_false]
      rw [ih (by simp)
        (fun u hu => hmid u (by rw [dropLast_cons₂]; exact List.mem_cons_of_mem w hu))
        (w :: cur)]
      simp

theorem groupSentsAux_cut (g : List Str) : g ≠ [] →
    (∀ w ∈ g.dropLast, endsPunct w = false) →
    endsPunct (g.getLastD []) = true →
    ∀ (rest : List Str), rest ≠ [] → ∀ cur,
      groupSentsAux cur (g ++ rest)
        = (cur.reverse ++ g) :: groupSentsAux [] rest := by
  induction g with
  | nil => intro h; exact absurd rfl h
  | cons w g' ih =>
    intro _ hmid hlast rest hrest cur
    cases g' with
    | nil =>
      obtain ⟨r, rest', rfl⟩ := List.exists_cons_of_ne_nil hrest
      have hw : endsPunct w = true := by simpa using hlast
      rw [show ([w] ++ r :: rest') = w :: r :: rest' from rfl,
        groupSentsAux_cons₂, hw]
      simp
    | cons v g'' =>
      have hw : endsPunct w = false := by
        refine hmid w ?_
        rw [dropLast_cons₂]
        exact List.mem_cons_self w _
      rw [show ((w :: v :: g'') ++ rest) = w :: ((v :: g'') ++ rest) from rfl]
      have hshape : (v :: g'') ++ rest = v :: (g'' ++ rest) := rfl
      rw [hshape, groupSentsAux_cons₂, hw]
      simp only [Bool.false_eq_true, if_false]
      rw [← hshape, ih (by simp)
        (fun u hu => hmid u
          (by rw [dropLast_cons₂]; exact List.mem_cons_of_mem w hu))
        (by rw [← getLastD_cons₂ w v g'']; exact hlast)
        rest hrest (w :: cur)]
      simp

theorem flatten_ne_nil (gs : List (List Str)) (hne : gs ≠ [])
    (hg : ∀ g ∈ gs, g ≠ []) : gs.flatten ≠ [] := by
  obtain ⟨g, gs', rfl⟩ := List.exists_cons_of_ne_nil hne
  rw [List.flatten_cons]
  intro hc
  exact (hg g (List.mem_cons_self g gs')) (List.append_eq_nil.mp hc).1

theorem groupSents_flatten (gs : List (List Str)) : gs ≠ [] →
    (∀ g ∈ gs, g ≠ []) →
    (∀ g ∈ gs, ∀ w ∈ g.dropLast, endsPunct w = false) →
    (∀ g ∈ gs.dropLast, endsPunct (g.getLastD []) = true) →
    groupSents gs.flatten = gs := by
  induction gs with
  | nil => intro h; exact absurd rfl h
  | cons g gs' ih =>
    intro _ hgne hmid hlast
    cases gs' with
    | nil =>
      show groupSentsAux [] ([g].flatten) = [g]
      rw [show ([g] : List (List Str)).flatten = g ++ [] from rfl,
        List.append_nil,
        groupSentsAux_final g (hgne g (by simp)) (hmid g (by simp)) []]
      rfl
    | cons g₂ gs'' =>
      show groupSentsAux [] ((g :: g₂ :: gs'').flatten) = _
      rw [List.flatten_cons,
        groupSentsAux_cut g (hgne g (by simp)) (hmid g (by simp))
          (hlast g (List.mem_cons_self g _))
          (g₂ :: gs'').flatten
          (flatten_ne_nil _ (by simp)
            (fun x hx => hgne x (List.mem_cons_of_mem g hx)))
          []]
      rw [show groupSentsAux [] (g₂ :: gs'').flatten
          = groupSents (g₂ :: gs'').flatten from rfl,
        ih (by simp) (fun x hx => hgne x (List.mem_cons_of_mem g hx))
          (fun x hx => hmid x (List.mem_cons_of_mem g hx))
          (fun x hx => hlast x (List.mem_cons_of_mem g hx))]
      simp

theorem groupSentsAux_groups (ws : List Str) : ∀ (cur : List Str),
    (∀ w ∈ ws, goodWord w) →
    (∀ w ∈ cur, goodWord w) → (∀ w ∈ cur, endsPunct w = false) →
    (cur = [] → ws ≠ []) →
    ∀ g ∈ groupSentsAux cur ws,
      g ≠ [] ∧ (∀ w ∈ g, goodWord w)
        ∧ (∀ w ∈ g.dropLast, endsPunct w = false) := by
  induction ws with
  | nil =>
    intro cur _ hcg hcp hside g hg
    have hcur : cur ≠ [] := by
      intro hc
      exact (hside hc) rfl
    rw [show groupSentsAux cur [] = [cur.reverse] from rfl,
      List.mem_singleton] at hg
    subst hg
    refine ⟨by simpa using hcur, fun w hw => hcg w (List.mem_reverse.mp hw),
      fun w hw => hcp w ?_⟩
    have hsub : cur.reverse.dropLast.Sublist cur.reverse :=
      List.dropLast_sublist _
    exact List.mem_reverse.mp (hsub.subset hw)
  | cons w ws' ih =>
    intro cur hws hcg hcp _ g hg
    have hwgood : goodWord w := hws w (List.mem_cons_self w ws')
    cases ws' with
    | nil =>
      rw [show groupSentsAux cur [w] = [(w :: cur).reverse] from rfl,
        List.mem_singleton] at hg
      subst hg
      refine ⟨by simp, ?_, ?_⟩
      · intro u hu
        rcases List.mem_cons.mp (List.mem_reverse.mp hu) with rfl | hu'
        · exact hwgood
        · exact hcg u hu'
      · intro u hu
        rw [show (w :: cur).reverse = cur.reverse ++ [w] from by simp,
          List.dropLast_concat] at hu
        exact hcp u (List.mem_reverse.mp hu)
    | cons v ws'' =>
      rw [groupSentsAux_cons₂] at hg
      by_cases hp : endsPunct w = true
      · rw [hp, if_pos rfl] at hg
        rcases List.mem_cons.mp hg with rfl | hg'
        · refine ⟨by simp, ?_, ?_⟩
          · intro u hu
            rcases List.mem_cons.mp (List.mem_reverse.mp hu) with rfl | hu'
            · exact hwgood
            · exact hcg u hu'
          · intro u hu
            rw [show (w :: cur).reverse = cur.reverse ++ [w] from by simp,
              List.dropLast_concat] at hu
            exact hcp u (List.mem_reverse.mp hu)
        · exact ih [] (fun u hu => hws u (List.mem_cons_of_mem w hu))
            (by simp) (by simp) (by intro _; simp) g hg'
      · rw [if_neg (by simpa using hp)] at hg
        refine ih (w :: cur) (fun u hu => hws u (List.mem_cons_of_mem w hu))
          ?_ ?_ (by intro hc; cases hc) g hg
        · intro u hu
          rcases List.mem_cons.mp hu with rfl | hu'
          · exact hwgood
          · exact hcg u hu'
        · intro u hu
          rcases List.mem_cons.mp hu with rfl | hu'
          · simpa using hp
          · exact hcp u hu'

theorem groupSentsAux_lastPunct (ws : List Str) : ∀ (cur : List Str),
    ∀ g ∈ (groupSentsAux cur ws).dropLast,
      endsPunct (g.getLastD []) = true := by
  induction ws with
  | nil =>
    intro cur g hg
    rw [show groupSentsAux cur [] = [cur.reverse] from rfl] at hg
    simp at hg
  | cons w ws' ih =>
    intro cur g hg
    cases ws' with
    | nil =>
      rw [show groupSentsAux cur [w] = [(w :: cur).reverse] from rfl] at hg
      simp at hg
    | cons v ws'' =>
      rw [groupSentsAux_cons₂] at hg
      by_cases hp : endsPunct w = true
      · rw [hp, if_pos rfl] at hg
        have hnn := groupSentsAux_ne_nil (v :: ws'') []
        obtain ⟨g0, rest0, hrw⟩ := List.exists_cons_of_ne_nil hnn
        rw [hrw, show ((w :: cur).reverse :: g0 :: rest0).dropLast
            = (w :: cur).reverse :: (g0 :: rest0).dropLast from rfl] at hg
        rcases List.mem_cons.mp hg with rfl | hg'
        · rw [show (w :: cur).reverse = cur.reverse ++ [w] from by simp,
            List.getLastD_eq_getLast?, List.getLast?_concat]
          simpa using hp
        · rw [← hrw] at hg'
          exact ih [] g hg'
      · rw [if_neg (by simpa using hp)] at hg
        exact ih (w :: cur) g hg

theorem appendToLast_ne_nil (suf : Str) (l : List Str) :
    appendToLast suf l ≠ [] := by
  cases l with
  | nil => simp [appendToLast]
  | cons w l' =>
    cases l' with
    | nil => simp [appendToLast]
    | cons v ws => simp [appendToLast]

theorem appendToLast_eq (suf : Str) (l : List Str) (h : l ≠ []) :
    appendToLast suf l = l.dropLast ++ [l.getLastD [] ++ suf] := by
  induction l with
  | nil => exact absurd rfl h
  | cons w l' ih =>
    cases l' with
    | nil => rfl
    | cons v ws =>
      show w :: appendToLast suf (v :: ws) = _
      rw [ih (by simp), dropLast_cons₂, getLastD_cons₂]
      rfl

theorem appendToLast_length (suf : Str) (l : List Str) (h : l ≠ []) :
    (appendToLast suf l).length = l.length := by
  rw [appendToLast_eq suf l h, List.length_append, List.length_dropLast]
  have : 1 ≤ l.length := List.length_pos.mpr h
  simp
  omega

theorem joinSpace_appendToLast (suf : Str) (l : List Str) :
    joinSpace (appendToLast suf l) = joinSpace l ++ suf := by
  induction l with
  | nil => simp [appendToLast, joinSpace, joinSep]
  | cons w l' ih =>
    cases l' with
    | nil => rfl
    | cons v ws =>
      show joinSpace (w :: appendToLast suf (v :: ws)) = _
      obtain ⟨a, rest, har⟩ :=
        List.exists_cons_of_ne_nil (appendToLast_ne_nil suf (v :: ws))
      rw [har, joinSpace_cons₂, ← har, ih, joinSpace_cons₂]
      simp

theorem truncPart_joinSpace (maxW : ℕ) (g : List Str)
    (hg : ∀ w ∈ g, goodWord w) :
    truncPart maxW (joinSpace g) = joinSpace (truncWords maxW g) := by
  unfold truncPart truncWords
  rw [pyWords_joinSpace g hg]
  by_cases h : maxW < g.length
  · rw [if_pos h, if_pos h, joinSpace_appendToLast]
  · rw [if_neg h, if_neg h]

theorem ellipsis_good : ∀ c ∈ "...".data, isPySpace c = false := by decide

theorem endsPunct_ellipsis (x : Str) : endsPunct (x ++ "...".data) = true := by
  have h : x ++ "...".data = (x ++ ['.', '.']) ++ ['.'] := by simp
  rw [h]
  unfold endsPunct
  rw [List.getLast?_concat]
  rfl

theorem mem_appendToLast (suf : Str) (l : List Str) (u : Str)
    (hu : u ∈ appendToLast suf l) :
    u = suf ∨ u ∈ l ∨ ∃ x ∈ l, u = x ++ suf := by
  induction l with
  | nil =>
    rw [show appendToLast suf [] = [suf] from rfl, List.mem_singleton] at hu
    exact Or.inl hu
  | cons w l' ih =>
    cases l' with
    | nil =>
      rw [show appendToLast suf [w] = [w ++ suf] from rfl,
        List.mem_singleton] at hu
      exact Or.inr (Or.inr ⟨w, by simp, hu⟩)
    | cons v ws =>
      rcases List.mem_cons.mp hu with rfl | hu'
      · exact Or.inr (Or.inl (List.mem_cons_self u _))
      · rcases ih hu' with h1 | h2 | ⟨x, hx, hx2⟩
        · exact Or.inl h1
        · exact Or.inr (Or.inl (List.mem_cons_of_mem w h2))
        · exact Or.inr (Or.inr ⟨x, List.mem_cons_of_mem w hx, hx2⟩)

theorem truncWords_good (maxW : ℕ) (g : List Str)
    (hg : ∀ w ∈ g, goodWord w) : ∀ w ∈ truncWords maxW g, goodWord w := by
  intro u hu
  unfold truncWords at hu
  by_cases h : maxW < g.length
  · rw [if_pos h] at hu
    rcases mem_appendToLast _ _ u hu with rfl | h2 | ⟨x, hx, rfl⟩
    · exact ⟨by decide, ellipsis_good⟩
    · exact hg u (List.take_subset maxW g h2)
    · have hxg := hg x (List.take_subset maxW g hx)
      refine ⟨by simp [hxg.1], ?_⟩
      intro c hc
      rcases List.mem_append.mp hc with hc1 | hc2
      · exact hxg.2 c hc1
      · exact ellipsis_good c hc2
  · rw [if_neg h] at hu
    exact hg u hu

theorem truncWords_ne_nil (maxW : ℕ) (g : List Str) (hg : g ≠ []) :
    truncWords maxW g ≠ [] := by
  unfold truncWords
  by_cases h : maxW < g.length
  · rw [if_pos h]
    exact appendToLast_ne_nil _ _
  · rw [if_neg h]
    exact hg

theorem truncWords_mid (maxW : ℕ) (g : List Str)
    (hmid : ∀ w ∈ g.dropLast, endsPunct w = false) :
    ∀ w ∈ (truncWords maxW g).dropLast, endsPunct w = false := by
  intro u hu
  unfold truncWords at hu
  by_cases h : maxW < g.length
  · rw [if_pos h] at hu
    cases htk : g.take maxW with
    | nil =>
      rw [htk, show appendToLast "...".data [] = ["...".data] from rfl] at hu
      simp at hu
    | cons a rest =>
      rw [htk, appendToLast_eq _ _ (by simp), List.dropLast_concat, ← htk] at hu
      have h1 : u ∈ g.take maxW :=
        (List.dropLast_sublist (g.take maxW)).subset hu
      have h2 : g.take maxW = (g.dropLast).take maxW := by
        rw [List.dropLast_eq_take, List.take_take]
        congr 1
        omega
      refine hmid u ?_
      rw [h2] at h1
      exact List.take_subset maxW g.dropLast h1
  · rw [if_neg h] at hu
    exact hmid u hu

theorem truncWords_lastPunct (maxW : ℕ) (g : List Str)
    (hl : endsPunct (g.getLastD []) = true) :
    endsPunct ((truncWords maxW g).getLastD []) = true := by
  unfold truncWords
  by_cases h : maxW < g.length
  · rw [if_pos h]
    cases htk : g.take maxW with
    | nil =>
      rw [show appendToLast "...".data [] = ["...".data] from rfl]
      decide
    | cons a rest =>
      rw [appendToLast_eq _ _ (by simp), ← htk,
        List.getLastD_eq_getLast?, List.getLast?_concat]
      simpa using endsPunct_ellipsis ((g.take maxW).getLastD [])
  · rw [if_neg h]
    exact hl

theorem truncWords_idem (maxW : ℕ) (g : List Str) :
    truncWords maxW (truncWords maxW g) = truncWords maxW g := by
  by_cases h : maxW < g.length
  · rw [show truncWords maxW g
        = appendToLast "...".data (g.take maxW)
      from by rw [truncWords, if_pos h]]
    cases hm : maxW with
    | zero =>
      rw [show g.take 0 = [] from rfl,
        show appendToLast "...".data [] = ["...".data] from rfl]
      rfl
    | succ m =>
      have hgne : g ≠ [] := by
        intro hc
        rw [hc] at h
        simp at h
      obtain ⟨a, g', rfl⟩ := List.exists_cons_of_ne_nil hgne
      have htk : (a :: g').take (m + 1) ≠ [] := by simp
      have hlen : (appendToLast "...".data ((a :: g').take (m + 1))).length
          = m + 1 := by
        rw [appendToLast_length _ _ htk, List.length_take]
        rw [hm] at h
        omega
      rw [truncWords, if_neg (by rw [hlen]; omega)]
  · rw [show truncWords maxW g = g from by rw [truncWords, if_neg h],
      truncWords, if_neg h]

theorem map_truncPart_joinSpace (maxW : ℕ) (gs : List (List Str))
    (h : ∀ g ∈ gs, ∀ w ∈ g, goodWord w) :
    gs.map (truncPart maxW ∘ joinSpace)
      = (gs.map (truncWords maxW)).map joinSpace := by
  rw [List.map_map]
  exact List.map_congr_left (fun g hg => truncPart_joinSpace maxW g (h g hg))

theorem postprocess_canonical (t : Str) (maxW : ℕ) (hws : pyWords t ≠ []) :
    postprocess_for_voice t maxW
      = joinSpace ((groupSents (pyWords t)).map (truncWords maxW)).flatten := by
  have hwsgood : ∀ w ∈ pyWords t, goodWord w := pyWords_good t
  have hgroups := groupSentsAux_groups (pyWords t) [] hwsgood (by simp)
    (by simp) (fun _ => hws)
  unfold postprocess_for_voice
  rw [normWs_eq_joinSpace_pyWords, splitSent_joinSpace (pyWords t) hwsgood,
    List.map_map,
    map_truncPart_joinSpace maxW (groupSents (pyWords t))
      (fun g hg => (hgroups g hg).2.1),
    joinSpace_flatten _ (by
      intro g' hg'
      obtain ⟨g, hg, rfl⟩ := List.mem_map.mp hg'
      exact truncWords_ne_nil maxW g (hgroups g hg).1)]

theorem postprocess_idem_core (t : Str) (maxW : ℕ) (hws : pyWords t ≠ []) :
    postprocess_for_voice (postprocess_for_voice t maxW) maxW
      = postprocess_for_voice t maxW := by
  have hwsgood : ∀ w ∈ pyWords t, goodWord w := pyWords_good t
  have hgroups := groupSentsAux_groups (pyWords t) [] hwsgood (by simp)
    (by simp) (fun _ => hws)
  have hlast := groupSentsAux_lastPunct (pyWords t) []
  have hgs'ne : (groupSents (pyWords t)).map (truncWords maxW) ≠ [] := by
    intro hc
    exact groupSentsAux_ne_nil (pyWords t) [] (by simpa using hc)
  have hg'ne : ∀ g' ∈ (groupSents (pyWords t)).map (truncWords maxW),
      g' ≠ [] := by
    intro g' hg'
    obtain ⟨g, hg, rfl⟩ := List.mem_map.mp hg'
    exact truncWords_ne_nil maxW g (hgroups g hg).1
  have hg'good : ∀ g' ∈ (groupSents (pyWords t)).map (truncWords maxW),
      ∀ w ∈ g', goodWord w := by
    intro g' hg'
    obtain ⟨g, hg, rfl⟩ := List.mem_map.mp hg'
    exact truncWords_good maxW g (hgroups g hg).2.1
  have hg'mid : ∀ g' ∈ (groupSents (pyWords t)).map (truncWords maxW),
      ∀ w ∈ g'.dropLast, endsPunct w = false := by
    intro g' hg'
    obtain ⟨g, hg, rfl⟩ := List.mem_map.mp hg'
    exact truncWords_mid maxW g (hgroups g hg).2.2
  have hg'last :
      ∀ g' ∈ ((groupSents (pyWords t)).map (truncWords maxW)).dropLast,
        endsPunct (g'.getLastD []) = true := by
    intro g' hg'
    rw [← List.map_dropLast] at hg'
    obtain ⟨g, hg, rfl⟩ := List.mem_map.mp hg'
    exact truncWords_lastPunct maxW g (hlast g hg)
  have hflatgood :
      ∀ w ∈ ((groupSents (pyWords t)).map (truncWords maxW)).flatten,
        goodWord w := by
    intro w hw
    obtain ⟨g', hg', hwg⟩ := List.mem_flatten.mp hw
    exact hg'good g' hg' w hwg
  have hmapidem : ((groupSents (pyWords t)).map (truncWords maxW)).map
      (truncWords maxW) = (groupSents (pyWords t)).map (truncWords maxW) := by
    rw [List.map_map]
    exact List.map_congr_left (fun g _ => truncWords_idem maxW g)
  have hpost := postprocess_canonical t maxW hws
  have hpw2 : pyWords (postprocess_for_voice t maxW)
      = ((groupSents (pyWords t)).map (truncWords maxW)).flatten := by
    rw [hpost, pyWords_joinSpace _ hflatgood]
  rw [show postprocess_for_voice (postprocess_for_voice t maxW) maxW
      = joinSpace (((splitSent (normWs (postprocess_for_voice t maxW))).map
          (truncPart maxW))) from rfl,
    normWs_eq_joinSpace_pyWords, hpw2,
    splitSent_joinSpace _ hflatgood,
    groupSents_flatten _ hgs'ne hg'ne hg'mid hg'last,
    List.map_map,
    map_truncPart_joinSpace maxW ((groupSents (pyWords t)).map
      (truncWords maxW)) hg'good,
    hmapidem,
    joinSpace_flatten _ hg'ne, ← hpost]

/-- Claim C8: `postprocess_for_voice` is idempotent at any fixed bound:
applying the transform twice with the same `max_sentence_words` yields the
same string as applying it once (already-bounded sentences pass through
unchanged). -/
theorem postprocess_for_voice_idempotent (t : Str) (maxW : ℕ) :
    postprocess_for_voice (postprocess_for_voice t maxW) maxW
      = postprocess_for_voice t maxW := by
  by_cases hws : pyWords t = []
  · have h0 : ∀ (s : Str), pyWords s = [] →
        postprocess_for_voice s maxW = [] := by
      intro s hs
      unfold postprocess_for_voice
      rw [normWs_eq_joinSpace_pyWords, hs,
        show joinSpace ([] : List Str) = [] from rfl,
        show splitSent ([] : Str) = [[]] from rfl]
      show joinSpace [truncPart maxW []] = []
      rw [show truncPart maxW [] = [] from by
        unfold truncPart
        rw [show pyWords ([] : Str) = [] from rfl]
        simp]
      rfl
    rw [h0 t hws, h0 [] rfl]
  · exact postprocess_idem_core t maxW hws

example : postprocess_for_voice "one two three four five. six seven".data 3
    = "one two three... six seven".data := by decide
example : postprocess_for_voice "  a \t b!c  d? e  ".data 1
    = "a... e".data := by decide
example : postprocess_for_voice "ab cd".data 0 = "...".data := by decide
example : postprocess_for_voice "hi.. there you go. ok".data 2
    = "hi.. there you... ok".data := by decide
example : postprocess_for_voice "a. . b".data 1 = "a. . b".data := by decide
example : postprocess_for_voice "x!  y?   z.".data 1 = "x! y? z.".data := by decide
